import Mathlib

/-!
Verification development for the schematic_utils repository: the paletted
voxel data model (regions, palettes, bounding boxes, coordinate routing)
and the binary codec for the gzip plus tag-tree schematic format, with its
palette conversion and variable-length integer block-array encoding.

Machine integers of the source are embedded as Nat or Int with explicit
reductions modulo a power of two at the points where the source casts or
where overflow can occur. Byte buffers are lists of Nat below 256 on the
u8 side and lists of Int in the signed byte range on the i8 side.
-/

namespace SchematicUtils

/-! ## Scalar cast helpers

Each helper models one concrete Rust cast appearing in the source. -/

/-- Models the Rust cast from i32 to usize: a negative value wraps modulo
2 to the 64. -/
def usizeOfI32 (v : Int) : Nat :=
  (v % 2 ^ 64).toNat

/-- Models the Rust cast from i16 to u32: sign extension then
reinterpretation, which is reduction modulo 2 to the 32. -/
def u32OfI16 (v : Int) : Nat :=
  (v % 2 ^ 32).toNat

/-- Models the Rust cast from u32 to i32: values at or above 2 to the 31
wrap to negative. -/
def i32OfU32 (n : Nat) : Int :=
  if n < 2 ^ 31 then (n : Int) else (n : Int) - 2 ^ 32

/-- Models the Rust cast from i32 (or wider) to i16: wrap into the i16
range. -/
def wrapI16 (v : Int) : Int :=
  (v + 2 ^ 15) % 2 ^ 16 - 2 ^ 15

/-- Models the Rust cast to i32: wrap into the i32 range. -/
def wrapI32 (v : Int) : Int :=
  (v + 2 ^ 31) % 2 ^ 32 - 2 ^ 31

/-- Models the Rust cast from u8 to i8 (u8 values are Nat below 256):
values at or above 128 wrap to negative. -/
def i8OfU8 (b : Nat) : Int :=
  if b < 128 then (b : Int) else (b : Int) - 256

/-- Models the Rust cast from i8 to u8: reduction modulo 256. -/
def u8OfI8 (v : Int) : Nat :=
  (v % 256).toNat

/-! ## Varint codec

Embeds encode_varint and decode_varint from src/formats/schematic.rs.
The source encoder loops on a u32 value, emitting seven data bits per
byte with the high bit as continuation marker. The loop divides the
value by 128 each round, so it runs at most five rounds on a u32; the
embedding makes that bound explicit as structural fuel.  For every input
below 2 to the 35 the fuel is never exhausted, so on the u32 domain of
the source the embedding agrees with the loop exactly. -/

/-- The encoder loop of encode_varint: byte is the low seven bits, the
high bit is set when more bits remain, and the loop continues on the
value shifted right by seven. -/
def encodeAux : Nat → Nat → List Nat
  | 0, v => [v % 128]
  | f + 1, v =>
    if v < 128 then [v]
    else (v % 128 + 128) :: encodeAux f (v / 128)

/-- encode_varint from the source, on the u32 domain: five fuel rounds
cover every u32. -/
def encode_varint (v : Nat) : List Nat :=
  encodeAux 5 v

/-- decode_varint from the source: accumulate seven data bits per byte
shifted into place (with the u32 truncation of the source), return on a
byte with clear high bit, and fail once the shift reaches 32, which
happens exactly when five continuation bytes have been consumed.  The
reader is the remaining byte list; running out of bytes models the
read_exact failure. -/
def decode_varint : List Nat → Nat → Nat → Except String (Nat × List Nat)
  | [], _, _ => .error "failed to fill whole buffer"
  | b :: rest, shift, acc =>
    let acc' := (acc ||| ((b &&& 127) <<< shift)) % 2 ^ 32
    if b &&& 128 == 0 then .ok (acc', rest)
    else if shift + 7 ≥ 32 then .error "Varint is too long"
    else decode_varint rest (shift + 7) acc'

/-- The base-128 little-endian value of a byte-group list, each group
contributing its low seven bits: the value decode_varint accumulates
over the bytes it consumes (before the u32 truncation). -/
def gval (gs : List Nat) : Nat :=
  gs.foldr (fun g a => a * 128 + (g &&& 127)) 0

/-! ## Character-list string utilities

The source splits and trims strings on single-character delimiters.
These helpers give those operations an executable, induction-friendly
form on the character list of a string. -/

/-- Split a character list at every occurrence of the delimiter; the
result is always nonempty, mirroring the Rust split iterator. -/
def splitOnChar (c : Char) : List Char → List (List Char)
  | [] => [[]]
  | x :: xs =>
    match splitOnChar c xs with
    | [] => [[]]
    | g :: gs => if x = c then [] :: g :: gs else (x :: g) :: gs

/-- Split a character list at the first occurrence of the delimiter,
mirroring the Rust split_once method: none when the delimiter is
absent. -/
def splitOnceChar (c : Char) : List Char → Option (List Char × List Char)
  | [] => none
  | x :: xs =>
    if x = c then some ([], xs)
    else (splitOnceChar c xs).map (fun p => (x :: p.1, p.2))

/-- Remove whitespace from both ends of a character list, mirroring the
Rust str trim method. -/
def trimChars (l : List Char) : List Char :=
  ((l.dropWhile Char.isWhitespace).reverse.dropWhile Char.isWhitespace).reverse

/-- Join character-list groups with a single-character separator,
mirroring the Rust join on a one-character string. -/
def joinChar (c : Char) : List (List Char) → List Char
  | [] => []
  | [g] => g
  | g :: gs => g ++ c :: joinChar c gs

/-! ## Tag tree

The generic tag-tree library (quartz_nbt) is an out-of-scope collaborator
of the repository.  Modelled from the spec: a tagged tree over the NBT
primitive kinds used by the codec, with typed accessors that fail when a
key is absent or holds the wrong tag, identifying the key in the failure
message.  Doubles are embedded as rationals.  Compounds are association
lists in insertion order; insertion with an existing key replaces the
held value, and iteration follows list order (a deterministic stand-in
for the unspecified hash-map iteration order of the library). -/

inductive NbtTag where
  | byte (v : Int)
  | short (v : Int)
  | int (v : Int)
  | long (v : Int)
  | double (v : Rat)
  | string (s : String)
  | byteArray (v : List Int)
  | intArray (v : List Int)
  | list (items : List NbtTag)
  | compound (entries : List (String × NbtTag))

/-- Compounds of the tag tree: association lists of named tags. -/
abbrev NbtCompound := List (String × NbtTag)

/-- Insert into a compound: replace the value when the key is present,
append otherwise. -/
def cInsert (c : NbtCompound) (k : String) (v : NbtTag) : NbtCompound :=
  if c.any (fun e => e.1 == k)
  then c.map (fun e => if e.1 == k then (k, v) else e)
  else c ++ [(k, v)]

/-- Look up the tag held at a key, first match in list order. -/
def cLookup (c : NbtCompound) (k : String) : Option NbtTag :=
  (c.find? (fun e => e.1 == k)).map (fun e => e.2)

/-- The failure message of a typed accessor names the key it could not
retrieve. -/
def tagErr (k : String) : String :=
  "missing or mismatched tag: " ++ k

/-- Typed accessor for int tags. -/
def getIntTag (c : NbtCompound) (k : String) : Except String Int :=
  match cLookup c k with
  | some (.int v) => .ok v
  | _ => .error (tagErr k)

/-- Typed accessor for short tags. -/
def getShortTag (c : NbtCompound) (k : String) : Except String Int :=
  match cLookup c k with
  | some (.short v) => .ok v
  | _ => .error (tagErr k)

/-- Typed accessor for string tags. -/
def getStringTag (c : NbtCompound) (k : String) : Except String String :=
  match cLookup c k with
  | some (.string s) => .ok s
  | _ => .error (tagErr k)

/-- Typed accessor for compound tags. -/
def getCompoundTag (c : NbtCompound) (k : String) : Except String NbtCompound :=
  match cLookup c k with
  | some (.compound e) => .ok e
  | _ => .error (tagErr k)

/-- Typed accessor for byte-array tags. -/
def getByteArrayTag (c : NbtCompound) (k : String) : Except String (List Int) :=
  match cLookup c k with
  | some (.byteArray v) => .ok v
  | _ => .error (tagErr k)

/-- Typed accessor for list tags. -/
def getListTag (c : NbtCompound) (k : String) : Except String (List NbtTag) :=
  match cLookup c k with
  | some (.list v) => .ok v
  | _ => .error (tagErr k)

/-- Whether a compound holds a key, mirroring contains_key. -/
def cContains (c : NbtCompound) (k : String) : Bool :=
  c.any (fun e => e.1 == k)

/-- Outcomes of a conversion: an ordinary error value propagated through
the Result type of the source, or a Rust panic (used to model an
out-of-bounds slice index, which aborts instead of returning an
error). -/
inductive ConvError where
  | parseErr (msg : String)
  | panicked (msg : String)
deriving DecidableEq

/-- Lift a tag accessor failure into the conversion error type. -/
def liftErr {α : Type} : Except String α → Except ConvError α
  | .ok a => .ok a
  | .error e => .error (.parseErr e)

/-! ## Block states -/

/-- Modelled from the spec: the block_state module is not under src.  A
block state is a type identifier string plus a property mapping of
key-value strings; the property mapping is embedded as an association
list in insertion order (the spec calls equality unordered, so the
embedded equality is finer; every claim here uses it only on states
whose property lists are written in one fixed order). -/
structure BlockState where
  name : String
  properties : List (String × String)
deriving DecidableEq

/-- Modelled from the spec: the BlockState constructor taking only a
name creates a state with no properties. -/
def BlockState.new (name : String) : BlockState :=
  { name := name, properties := [] }

/-- The canonical default block state. -/
def airState : BlockState :=
  BlockState.new "minecraft:air"

/-- parse_block_state from src/formats/schematic.rs: split at the first
opening bracket; the part before is the name; the remainder, with every
trailing closing bracket removed, splits on commas into properties, each
split at the first equals sign with both sides trimmed, entries without
an equals sign dropped. -/
def parse_block_state (input : String) : BlockState :=
  match splitOnceChar '[' input.toList with
  | some (nameChars, propsChars) =>
    let groups := splitOnChar ',' ((propsChars.reverse.dropWhile (fun c => c = ']')).reverse)
    let props := groups.filterMap (fun g =>
      match splitOnceChar '=' g with
      | some (k, v) => some (String.mk (trimChars k), String.mk (trimChars v))
      | none => none)
    { name := String.mk nameChars, properties := props }
  | none => BlockState.new input

/-- The palette key written by convert_palette for one block state: the
bare name when there are no properties, otherwise the name followed by
the comma-joined key=value pairs in brackets. -/
def formatKey (b : BlockState) : String :=
  if b.properties.isEmpty then b.name
  else
    String.mk (b.name.toList ++ '[' ::
      joinChar ',' (b.properties.map (fun p => p.1.toList ++ '=' :: p.2.toList)) ++ [']'])

/-! ## Coordinates and bounding boxes -/

/-- A signed integer 3-vector, used for positions and sizes. -/
structure I3 where
  x : Int
  y : Int
  z : Int
deriving DecidableEq

/-- Modelled from the spec: the bounding_box module is not under src.
Inclusive integer min and max corners. -/
structure BoundingBox where
  bmin : I3
  bmax : I3
deriving DecidableEq

/-- Modelled from the spec: bounding box union is the componentwise min
and max of both corners. -/
def BoundingBox.union (a b : BoundingBox) : BoundingBox :=
  { bmin := ⟨min a.bmin.x b.bmin.x, min a.bmin.y b.bmin.y, min a.bmin.z b.bmin.z⟩,
    bmax := ⟨max a.bmax.x b.bmax.x, max a.bmax.y b.bmax.y, max a.bmax.z b.bmax.z⟩ }

/-- Modelled from the spec: containment is the componentwise inclusive
range check. -/
def BoundingBox.containsB (bb : BoundingBox) (p : I3) : Bool :=
  decide (bb.bmin.x ≤ p.x ∧ p.x ≤ bb.bmax.x ∧
          bb.bmin.y ≤ p.y ∧ p.y ≤ bb.bmax.y ∧
          bb.bmin.z ≤ p.z ∧ p.z ≤ bb.bmax.z)

/-- Modelled from the spec: dimensions are the absolute difference of
the corners plus one on each axis. -/
def BoundingBox.get_dimensions (bb : BoundingBox) : I3 :=
  ⟨(bb.bmax.x - bb.bmin.x).natAbs + 1,
   (bb.bmax.y - bb.bmin.y).natAbs + 1,
   (bb.bmax.z - bb.bmin.z).natAbs + 1⟩

/-! ## Entities and block entities -/

/-- Modelled from the spec: the entity module is not under src.  An
entity has an identifier, a floating-point position (embedded as
rationals) and open-ended string data. -/
structure Entity where
  id : String
  px : Rat
  py : Rat
  pz : Rat
  nbtData : List (String × String)
deriving DecidableEq

/-- Modelled from the spec: the block_entity module is not under src.
A block entity has an identifier, an absolute integer position, and
open-ended string data. -/
structure BlockEntity where
  id : String
  position : I3
  nbtData : List (String × String)
deriving DecidableEq

/-- Modelled from the spec: the tag mapping a block entity delegates to
when serialized. -/
def BlockEntity.to_nbt (be : BlockEntity) : NbtCompound :=
  [("Id", .string be.id),
   ("Pos", .intArray [be.position.x, be.position.y, be.position.z]),
   ("Data", .compound (be.nbtData.map (fun p => (p.1, NbtTag.string p.2))))]

/-- Modelled from the spec: the inverse tag mapping of a block entity;
the source from_nbt is infallible, defaulting absent parts. -/
def BlockEntity.from_nbt (c : NbtCompound) : BlockEntity :=
  let id := ((getStringTag c "Id").toOption).getD ""
  let pos :=
    match cLookup c "Pos" with
    | some (.intArray [x, y, z]) => (⟨x, y, z⟩ : I3)
    | _ => (⟨0, 0, 0⟩ : I3)
  let data :=
    match cLookup c "Data" with
    | some (.compound entries) =>
      entries.filterMap (fun e =>
        match e.2 with
        | .string s => some (e.1, s)
        | _ => none)
    | _ => []
  { id := id, position := pos, nbtData := data }

/-- Modelled from the spec: the tag mapping an entity delegates to when
serialized; positions are doubles. -/
def Entity.to_nbt (e : Entity) : NbtCompound :=
  [("Id", .string e.id),
   ("Pos", .list [.double e.px, .double e.py, .double e.pz]),
   ("Data", .compound (e.nbtData.map (fun p => (p.1, NbtTag.string p.2))))]

/-- Modelled from the spec: the inverse tag mapping of an entity; the
source from_nbt is fallible. -/
def Entity.from_nbt (c : NbtCompound) : Except ConvError Entity :=
  match cLookup c "Id", cLookup c "Pos", cLookup c "Data" with
  | some (.string id), some (.list [.double x, .double y, .double z]),
      some (.compound entries) =>
    .ok { id := id, px := x, py := y, pz := z,
          nbtData := entries.filterMap (fun e =>
            match e.2 with
            | .string s => some (e.1, s)
            | _ => none) }
  | _, _, _ => .error (.parseErr "invalid entity tag")

/-! ## Palette -/

/-- First index of a block state in a list, or the list length when it
is absent. -/
def idxOfBS : List BlockState → BlockState → Nat
  | [], _ => 0
  | b :: rest, s => if b = s then 0 else idxOfBS rest s + 1

/-- Membership test used by the palette. -/
def memBS (l : List BlockState) (s : BlockState) : Bool :=
  l.any (fun b => b = s)

/-- Modelled from the spec: the global palette module is not under src.
An ordered, append-only list of block states; air occupies index 0 at
construction. -/
structure GlobalPalette where
  states : List BlockState
deriving DecidableEq

/-- Modelled from the spec: a fresh palette holds only air, at id 0. -/
def GlobalPalette.new : GlobalPalette :=
  ⟨[airState]⟩

/-- Modelled from the spec: get_or_insert returns the existing id of a
value-equal state, or appends the state and returns the new id. -/
def GlobalPalette.get_or_insert (p : GlobalPalette) (b : BlockState) :
    Nat × GlobalPalette :=
  if memBS p.states b then (idxOfBS p.states b, p)
  else (p.states.length, ⟨p.states ++ [b]⟩)

/-- Modelled from the spec: get returns the state at an id, or no value
when the id is out of range. -/
def GlobalPalette.get (p : GlobalPalette) (i : Nat) : Option BlockState :=
  p.states.get? i

/-! ## Regions -/

/-- Modelled from the spec: the region module is not under src.  A named
positioned cuboid with a dense array of palette ids in the fixed scan
order (x fastest, then z, then y), position-keyed block entities, an
ordered entity list, and an optional self-contained palette filled when
the region is parsed from a single-palette file. -/
structure Region where
  name : String
  position : I3
  size : I3
  blocks : List Nat
  palette : List BlockState
  blockEntities : List (I3 × BlockEntity)
  entities : List Entity
deriving DecidableEq

/-- The volume of a size vector, componentwise absolute value. -/
def volume (s : I3) : Nat :=
  s.x.natAbs * s.y.natAbs * s.z.natAbs

/-- Modelled from the spec: a new region has a dense id array of length
volume, every cell defaulting to air id 0, and no palette, entities or
block entities. -/
def Region.new (name : String) (pos size : I3) : Region :=
  { name := name, position := pos, size := size,
    blocks := List.replicate (volume size) 0,
    palette := [], blockEntities := [], entities := [] }

/-- Modelled from the spec: the region bounding box runs from the origin
to origin plus size minus one, normalized so min is at most max on every
axis. -/
def Region.get_bounding_box (r : Region) : BoundingBox :=
  let a := r.position
  let b : I3 := ⟨a.x + r.size.x - 1, a.y + r.size.y - 1, a.z + r.size.z - 1⟩
  { bmin := ⟨min a.x b.x, min a.y b.y, min a.z b.z⟩,
    bmax := ⟨max a.x b.x, max a.y b.y, max a.z b.z⟩ }

/-- The local flat index of an absolute coordinate:
index = ((y_local times size.z) plus z_local) times size.x plus x_local. -/
def localIndex (pos size : I3) (c : I3) : Nat :=
  ((c.y - pos.y).toNat * size.z.toNat + (c.z - pos.z).toNat) * size.x.toNat
    + (c.x - pos.x).toNat

/-- The absolute coordinate of a local flat index, inverting localIndex
on the box: x = i mod w, z = i div w mod l, y = i div (w times l). -/
def coordOfIndex (pos : I3) (w l : Nat) (i : Nat) : I3 :=
  ⟨pos.x + (i % w : Nat), pos.y + (i / (w * l) : Nat), pos.z + (i / w % l : Nat)⟩

/-- Modelled from the spec: set_block_index stores the id at the local
offset and reports success, or reports failure without mutation when the
point is outside the current bounds. -/
def Region.set_block_index (r : Region) (c : I3) (id : Nat) : Bool × Region :=
  if r.get_bounding_box.containsB c then
    (true, { r with blocks := r.blocks.set (localIndex r.position r.size c) id })
  else (false, r)

/-- Modelled from the spec: get_block_index returns the stored id, or no
value outside the bounds. -/
def Region.get_block_index (r : Region) (c : I3) : Option Nat :=
  if r.get_bounding_box.containsB c then
    r.blocks.get? (localIndex r.position r.size c)
  else none

/-- Modelled from the spec: expand_to_fit grows the origin and size to
the union of the current box with the point, reallocates the block
array, remaps every previously stored id to its new offset, and fills
newly created cells with air id 0. -/
def Region.expand_to_fit (r : Region) (c : I3) : Region :=
  let old := r.get_bounding_box
  let nb := old.union { bmin := c, bmax := c }
  let dims := nb.get_dimensions
  let w := dims.x.toNat
  let h := dims.y.toNat
  let l := dims.z.toNat
  let blocks := (List.range (w * h * l)).map (fun i =>
    let p := coordOfIndex nb.bmin w l i
    if old.containsB p then r.blocks.getD (localIndex r.position r.size p) 0 else 0)
  { r with position := nb.bmin, size := ⟨dims.x, dims.y, dims.z⟩, blocks := blocks }

/-- Modelled from the spec: add_block_entity inserts keyed by the block
entity position, overwriting any prior entry at that exact position. -/
def Region.add_block_entity (r : Region) (be : BlockEntity) : Region :=
  if r.blockEntities.any (fun e => e.1 = be.position) then
    { r with blockEntities :=
        r.blockEntities.map (fun e => if e.1 = be.position then (be.position, be) else e) }
  else { r with blockEntities := r.blockEntities ++ [(be.position, be)] }

/-- Modelled from the spec: add_entity appends to the ordered entity
list. -/
def Region.add_entity (r : Region) (e : Entity) : Region :=
  { r with entities := r.entities ++ [e] }

/-! ## Metadata -/

/-- Modelled from the spec: the metadata module is not under src.  A
display name and an optional source game data version (the fields the
schematic codec reads and writes). -/
structure Metadata where
  name : Option String
  mc_version : Option Int
deriving DecidableEq

/-- Modelled from the spec: the default metadata has no name and no
version. -/
def Metadata.default : Metadata :=
  { name := none, mc_version := none }

/-- Modelled from the spec: the metadata tag mapping carries the display
name under the Name key when present. -/
def Metadata.to_nbt (m : Metadata) : NbtCompound :=
  match m.name with
  | some n => [("Name", .string n)]
  | none => []

/-! ## Universal schematic

Embedded from src/src/schematic.rs.  The region map is an association
list in insertion order: a deterministic stand-in for the unspecified
hash-map iteration order of the source (the spec documents that the
iteration order on overlapping regions is ambiguous; every claim here
involves at most one region, where the orders coincide). -/

structure UniversalSchematic where
  metadata : Metadata
  regions : List (String × Region)
  palette : GlobalPalette
  default_region_name : String
deriving DecidableEq

namespace UniversalSchematic

/-- UniversalSchematic::new: named metadata, no regions, a fresh global
palette, and the default region bucket named Main. -/
def new (name : String) : UniversalSchematic :=
  { metadata := { Metadata.default with name := some name },
    regions := [], palette := GlobalPalette.new,
    default_region_name := "Main" }

/-- Replace the region stored at a name, leaving other entries as they
are (the write-back of a mutable region borrow). -/
def updateRegion (l : List (String × Region)) (k : String) (r : Region) :
    List (String × Region) :=
  l.map (fun e => if e.1 == k then (k, r) else e)

/-- Look up a region by name, first match in list order. -/
def lookupRegion (l : List (String × Region)) (k : String) : Option Region :=
  (l.find? (fun e => e.1 == k)).map (fun e => e.2)

/-- The entry or_insert pattern of the source: return the stored region
and the unchanged list, or append the provided default and return it. -/
def entryOrInsert (l : List (String × Region)) (k : String) (dflt : Region) :
    List (String × Region) × Region :=
  match lookupRegion l k with
  | some r => (l, r)
  | none => (l ++ [(k, dflt)], dflt)

/-- set_block_in_region: resolve or lazily create the named region as a
one-cell region at the write coordinate, expand it to cover the
coordinate, get-or-insert the state into the schematic-wide palette, and
store the resulting id in the region.  Returns the success flag of the
region store. -/
def set_block_in_region (s : UniversalSchematic) (region_name : String)
    (x y z : Int) (block : BlockState) : Bool × UniversalSchematic :=
  let (regions1, region) :=
    entryOrInsert s.regions region_name (Region.new region_name ⟨x, y, z⟩ ⟨1, 1, 1⟩)
  let region := region.expand_to_fit ⟨x, y, z⟩
  let (block_index, pal) := s.palette.get_or_insert block
  let (ok, region) := region.set_block_index ⟨x, y, z⟩ block_index
  (ok, { s with regions := updateRegion regions1 region_name region, palette := pal })

/-- set_block: set_block_in_region on the default bucket. -/
def set_block (s : UniversalSchematic) (x y z : Int) (block : BlockState) :
    Bool × UniversalSchematic :=
  s.set_block_in_region s.default_region_name x y z block

/-- get_block_from_region: resolve the region, read the stored id at the
coordinate, and translate it through the schematic-wide palette. -/
def get_block_from_region (s : UniversalSchematic) (region_name : String)
    (x y z : Int) : Option BlockState :=
  (lookupRegion s.regions region_name).bind (fun region =>
    (region.get_block_index ⟨x, y, z⟩).bind (fun block_index =>
      s.palette.get block_index))

/-- The region scan of get_block over the iteration order. -/
def get_block_aux (s : UniversalSchematic) (x y z : Int) :
    List (String × Region) → Option BlockState
  | [] => none
  | (_, region) :: rest =>
    if region.get_bounding_box.containsB ⟨x, y, z⟩ then
      match s.get_block_from_region region.name x y z with
      | some b => some b
      | none => get_block_aux s x y z rest
    else get_block_aux s x y z rest

/-- get_block: the block of the first region whose bounding box contains
the point and whose lookup yields a value. -/
def get_block (s : UniversalSchematic) (x y z : Int) : Option BlockState :=
  get_block_aux s x y z s.regions

/-- add_region: failure without mutation when the name exists, insertion
otherwise. -/
def add_region (s : UniversalSchematic) (region : Region) :
    Bool × UniversalSchematic :=
  if s.regions.any (fun e => e.1 == region.name) then (false, s)
  else (true, { s with regions := s.regions ++ [(region.name, region)] })

/-- get_region by name. -/
def get_region (s : UniversalSchematic) (name : String) : Option Region :=
  lookupRegion s.regions name

/-- add_block_entity_in_region: resolve or lazily create the named
region as a one-cell region at the block entity position, then insert
the block entity; always reports success. -/
def add_block_entity_in_region (s : UniversalSchematic) (region_name : String)
    (be : BlockEntity) : Bool × UniversalSchematic :=
  let (regions1, region) :=
    entryOrInsert s.regions region_name (Region.new region_name be.position ⟨1, 1, 1⟩)
  let region := region.add_block_entity be
  (true, { s with regions := updateRegion regions1 region_name region })

/-- add_block_entity: add_block_entity_in_region on the default
bucket. -/
def add_block_entity (s : UniversalSchematic) (be : BlockEntity) :
    Bool × UniversalSchematic :=
  s.add_block_entity_in_region s.default_region_name be

/-- add_entity_in_region: resolve or lazily create the named region as a
one-cell region at the rounded entity position, then append the entity;
always reports success. -/
def add_entity_in_region (s : UniversalSchematic) (region_name : String)
    (e : Entity) : Bool × UniversalSchematic :=
  let (regions1, region) :=
    entryOrInsert s.regions region_name
      (Region.new region_name ⟨round e.px, round e.py, round e.pz⟩ ⟨1, 1, 1⟩)
  let region := region.add_entity e
  (true, { s with regions := updateRegion regions1 region_name region })

/-- add_entity: add_entity_in_region on the default bucket. -/
def add_entity (s : UniversalSchematic) (e : Entity) :
    Bool × UniversalSchematic :=
  s.add_entity_in_region s.default_region_name e

/-- get_bounding_box: fold the union over every region box, starting
from the sentinel box of i32 extremes. -/
def get_bounding_box (s : UniversalSchematic) : BoundingBox :=
  s.regions.foldl (fun bb e => bb.union e.2.get_bounding_box)
    { bmin := ⟨2147483647, 2147483647, 2147483647⟩,
      bmax := ⟨-2147483648, -2147483648, -2147483648⟩ }

end UniversalSchematic

/-! ## Region merge -/

/-- First occurrences of the states of a list, in order: the dense local
palette of the merge step assigns ids in scan order of first
occurrence. -/
def dedupFirst (l : List BlockState) : List BlockState :=
  l.foldl (fun acc b => if memBS acc b then acc else acc ++ [b]) []

/-- The state a merged cell takes at one absolute coordinate: the owning
region resolved with the get_block precedence, translated through the
schematic-wide palette; coordinates covered by no region default to
air. -/
def mergedStateAt (s : UniversalSchematic) (bmin : I3) (w l i : Nat) : BlockState :=
  let c := coordOfIndex bmin w l i
  match s.get_block c.x c.y c.z with
  | some st => st
  | none => airState

/-- The scan-order list of merged cell states over the union bounding
box. -/
def mergedStates (s : UniversalSchematic) : List BlockState :=
  let bb := s.get_bounding_box
  let dims := bb.get_dimensions
  let w := dims.x.toNat
  let h := dims.y.toNat
  let l := dims.z.toNat
  (List.range (w * h * l)).map (mergedStateAt s bb.bmin w l)

/-- Modelled from the spec: get_merged_region is not under src.  Flatten
all regions into one synthetic region over the union bounding box, with
a brand-new dense local palette whose ids are assigned in scan order of
first occurrence, and the block array holding each cell state translated
into that palette. -/
def get_merged_region (s : UniversalSchematic) : Region :=
  let bb := s.get_bounding_box
  let dims := bb.get_dimensions
  let states := mergedStates s
  let pal := dedupFirst states
  { name := "Merged", position := bb.bmin, size := dims,
    blocks := states.map (idxOfBS pal),
    palette := pal, blockEntities := [], entities := [] }

/-! ## Schematic codec

Embedded from src/formats/schematic.rs. -/

/-- convert_palette: a compound holding minecraft air at id 0 and, for
every palette entry whose name is not minecraft air, its formatted key
at its positional id, together with the maximum id inserted (zero when
every entry is air). -/
def convert_palette (palette : List BlockState) : NbtCompound × Int :=
  let start : NbtCompound × Nat := (cInsert [] "minecraft:air" (.int 0), 0)
  let out := palette.enum.foldl (fun acc p =>
    if p.2.name == "minecraft:air" then acc
    else (cInsert acc.1 (formatKey p.2) (.int (p.1 : Int)), max acc.2 p.1)) start
  (out.1, (out.2 : Int))

/-- The assignment loop of parse_palette: for every compound entry
holding an int id, write the parsed block state at that index of the
accumulator; an index at or beyond the accumulator length is the
out-of-bounds vector write of the source, which panics. -/
def paletteFill : List (String × NbtTag) → List BlockState →
    Except ConvError (List BlockState)
  | [], acc => .ok acc
  | (k, .int id) :: rest, acc =>
    if usizeOfI32 id < acc.length then
      paletteFill rest (acc.set (usizeOfI32 id) (parse_block_state k))
    else .error (.panicked "index out of bounds")
  | (_, _) :: rest, acc => paletteFill rest acc

/-- parse_palette: read the palette compound and the maximum id, start
from a vector of length maximum id plus one pre-filled with air, and run
the assignment loop over the compound entries. -/
def parse_palette (root : NbtCompound) : Except ConvError (List BlockState) := do
  let pc ← liftErr (getCompoundTag root "Palette")
  let pmax ← liftErr (getIntTag root "PaletteMax")
  paletteFill pc (List.replicate (usizeOfI32 pmax + 1) airState)

/-- The decode loop of parse_block_data: decode varints until the stream
is exhausted; on a decode error, stop and keep what was decoded so far
(the source prints the error and breaks).  The fuel argument is the
byte count, an upper bound on the number of varints. -/
def decodeBlockLoop : Nat → List Nat → List Nat
  | _, [] => []
  | 0, _ :: _ => []
  | f + 1, b :: rest =>
    match decode_varint (b :: rest) 0 0 with
    | .ok (v, rest2) => v :: decodeBlockLoop f rest2
    | .error _ => []

/-- The debug decode pass of to_schematic: the same loop, but a decode
error aborts the conversion because the source propagates it. -/
def decodeAllExcept : Nat → List Nat → Except String (List Nat)
  | _, [] => .ok []
  | 0, _ :: _ => .ok []
  | f + 1, b :: rest =>
    match decode_varint (b :: rest) 0 0 with
    | .ok (v, rest2) => (decodeAllExcept f rest2).map (fun vs => v :: vs)
    | .error e => .error e

/-- parse_block_data: read the block-data byte array, reinterpret the
signed bytes as unsigned, and run the decode loop.  A decoded count that
differs from width times height times length is only a printed
diagnostic in the source; the decoded array is returned either way. -/
def parse_block_data (root : NbtCompound) (_width _height _length : Nat) :
    Except ConvError (List Nat) := do
  let bdI ← liftErr (getByteArrayTag root "BlockData")
  let bd := bdI.map u8OfI8
  .ok (decodeBlockLoop bd.length bd)

/-- parse_block_entities: read the list, keep the compound items, and
map each through the block entity tag mapping (infallible). -/
def parse_block_entities (root : NbtCompound) :
    Except ConvError (List BlockEntity) := do
  let l ← liftErr (getListTag root "BlockEntities")
  .ok (l.filterMap (fun t =>
    match t with
    | .compound c => some (BlockEntity.from_nbt c)
    | _ => none))

/-- The fallible entity mapping over the kept compound items of the
entity list. -/
def entitiesFromTags : List NbtTag → Except ConvError (List Entity)
  | [] => .ok []
  | .compound c :: rest => do
    let e ← Entity.from_nbt c
    let es ← entitiesFromTags rest
    .ok (e :: es)
  | _ :: rest => entitiesFromTags rest

/-- parse_entities: an absent Entities key yields the empty list;
otherwise read the list and map the compound items through the entity
tag mapping, any failure aborting. -/
def parse_entities (root : NbtCompound) : Except ConvError (List Entity) :=
  if cContains root "Entities" then do
    let l ← liftErr (getListTag root "Entities")
    entitiesFromTags l
  else .ok []

/-- A byte buffer of the external container format.  Modelled from the
spec: gzip and the binary tag serialization are out-of-scope library
collaborators whose contract is that decompressing and parsing a buffer
either reproduces the unique tag tree written into it or fails.  A
buffer is therefore either a well-formed container carrying its tag
tree, or an arbitrary buffer on which decompression or parsing fails. -/
inductive Bytes where
  | valid (root : NbtCompound)
  | invalid (junk : List Nat)

/-- to_schematic: assemble the root compound field by field in source
order, encode the merged block array as concatenated varints, run the
debug decode pass over it (a failure there aborts the conversion), and
wrap the tree in the container. -/
def to_schematic (s : UniversalSchematic) : Except ConvError Bytes :=
  let root := cInsert [] "Version" (.int 2)
  let root := cInsert root "DataVersion" (.int (s.metadata.mc_version.getD 1343))
  let bb := s.get_bounding_box
  let dims := bb.get_dimensions
  let root := cInsert root "Width" (.short (wrapI16 dims.x).natAbs)
  let root := cInsert root "Height" (.short (wrapI16 dims.y).natAbs)
  let root := cInsert root "Length" (.short (wrapI16 dims.z).natAbs)
  let root := cInsert root "Size" (.intArray [wrapI32 dims.x, wrapI32 dims.y, wrapI32 dims.z])
  let root := cInsert root "Offset" (.intArray [0, 0, 0])
  let merged := get_merged_region s
  let root := cInsert root "Palette" (.compound (convert_palette merged.palette).1)
  let root := cInsert root "PaletteMax" (.int (convert_palette merged.palette).2)
  let block_data := merged.blocks.flatMap (fun id => encode_varint (id % 2 ^ 32))
  match decodeAllExcept block_data.length block_data with
  | .error e => .error (.parseErr e)
  | .ok _ =>
    let root := cInsert root "BlockData" (.byteArray (block_data.map i8OfU8))
    let root := cInsert root "BlockEntities"
      (.list (s.regions.flatMap (fun e =>
        e.2.blockEntities.map (fun p => NbtTag.compound p.2.to_nbt))))
    let root := cInsert root "Entities"
      (.list (s.regions.flatMap (fun e =>
        e.2.entities.map (fun en => NbtTag.compound en.to_nbt))))
    let root := cInsert root "Metadata" (.compound s.metadata.to_nbt)
    .ok (.valid root)

/-- from_schematic: fail on a malformed container; otherwise read the
display name leniently (falling back to the Unnamed sentinel), the data
version leniently, then require Width, Height and Length as shorts cast
to u32, the palette, and the block data; build one region named Main at
the origin carrying the local palette and the decoded ids, attach the
parsed block entities and entities, and add the region to a fresh
schematic. -/
def from_schematic (b : Bytes) : Except ConvError UniversalSchematic :=
  match b with
  | .invalid _ => .error (.parseErr "failed to read container")
  | .valid root => do
    let name := (((getCompoundTag root "Metadata").toOption).bind (fun m =>
      (getStringTag m "Name").toOption)).getD "Unnamed"
    let mc_version := (getIntTag root "DataVersion").toOption
    let s0 := UniversalSchematic.new name
    let s0 := { s0 with metadata := { s0.metadata with mc_version := mc_version } }
    let wTag ← liftErr (getShortTag root "Width")
    let hTag ← liftErr (getShortTag root "Height")
    let lTag ← liftErr (getShortTag root "Length")
    let width := u32OfI16 wTag
    let height := u32OfI16 hTag
    let length := u32OfI16 lTag
    let pal ← parse_palette root
    let block_data ← parse_block_data root width height length
    let r0 := Region.new "Main" ⟨0, 0, 0⟩
      ⟨i32OfU32 width, i32OfU32 height, i32OfU32 length⟩
    let r0 := { r0 with palette := pal, blocks := block_data }
    let bes ← parse_block_entities root
    let r1 := bes.foldl Region.add_block_entity r0
    let ents ← parse_entities root
    let r2 := ents.foldl Region.add_entity r1
    .ok (s0.add_region r2).2

/-- Whether a typed accessor succeeded. -/
def isOkE {α : Type} : Except String α → Bool
  | .ok _ => true
  | .error _ => false

/-- Whether a conversion succeeded. -/
def convOk {α : Type} : Except ConvError α → Bool
  | .ok _ => true
  | .error _ => false

/-- is_schematic: false when decompression or tag parsing fails;
otherwise true exactly when Version and DataVersion are ints, Width,
Height and Length are shorts, and BlockData is a byte array. -/
def is_schematic (b : Bytes) : Bool :=
  match b with
  | .invalid _ => false
  | .valid root =>
    isOkE (getIntTag root "Version") &&
    isOkE (getIntTag root "DataVersion") &&
    isOkE (getShortTag root "Width") &&
    isOkE (getShortTag root "Height") &&
    isOkE (getShortTag root "Length") &&
    isOkE (getByteArrayTag root "BlockData")

/-! ## Build operations

The mutation language of the round-trip claim: block, entity and
block-entity mutations on a single (default) region, starting from a
fresh named schematic. -/

inductive BuildOp where
  | setBlock (x y z : Int) (b : BlockState)
  | addEntity (e : Entity)
  | addBlockEntity (be : BlockEntity)

/-- Apply one mutation through the public schematic interface. -/
def applyOp (s : UniversalSchematic) : BuildOp → UniversalSchematic
  | .setBlock x y z b => (s.set_block x y z b).2
  | .addEntity e => (s.add_entity e).2
  | .addBlockEntity be => (s.add_block_entity be).2

/-- Build a schematic from a fresh named schematic by a list of
mutations. -/
def build (name : String) (ops : List BuildOp) : UniversalSchematic :=
  ops.foldl applyOp (UniversalSchematic.new name)

/-- A coordinate representable in the i32 of the source. -/
def inI32 (v : Int) : Bool :=
  decide (-(2 ^ 31) ≤ v ∧ v < 2 ^ 31)

/-- A block state whose palette key survives the key grammar of the
codec: the name is free of the opening bracket, a state named air
carries no properties, property keys avoid the comma, equals and
closing-bracket delimiters, property values avoid the comma and
closing bracket, and keys and values carry no surrounding
whitespace. -/
def stateWfB (b : BlockState) : Bool :=
  b.name.toList.all (fun c => c != '[') &&
  (!(b.name == "minecraft:air") || b.properties.isEmpty) &&
  b.properties.all (fun p =>
    p.1.toList.all (fun c => c != ',' && c != '=' && c != ']') &&
    (trimChars p.1.toList == p.1.toList) &&
    p.2.toList.all (fun c => c != ',' && c != ']') &&
    (trimChars p.2.toList == p.2.toList))

/-- A mutation whose block state is key-grammar safe and whose
coordinates (for an entity, the rounded position the lazy region
creation uses) are representable in i32. -/
def opWfB : BuildOp → Bool
  | .setBlock x y z b => stateWfB b && inI32 x && inI32 y && inI32 z
  | .addEntity e => inI32 (round e.px) && inI32 (round e.py) && inI32 (round e.pz)
  | .addBlockEntity be =>
    inI32 be.position.x && inI32 be.position.y && inI32 be.position.z

/-- Whether the bounding box dimensions of a schematic fit the i16
Width, Height and Length fields of the wire format. -/
def dimsFit (s : UniversalSchematic) : Bool :=
  decide (s.get_bounding_box.get_dimensions.x ≤ 32767 ∧
          s.get_bounding_box.get_dimensions.y ≤ 32767 ∧
          s.get_bounding_box.get_dimensions.z ≤ 32767)

/-- The block state of a decoded region at a relative coordinate,
resolved through the region's own self-contained palette, with ids
beyond that palette resolving to air: the observation under which
block identity survives the round trip. -/
def localBlock (r : Region) (i j k : Nat) : BlockState :=
  r.palette.getD
    (r.blocks.getD ((j * r.size.z.toNat + k) * r.size.x.toNat + i) 0) airState

/-- The varint-encoded block array of the merged region, as written by
to_schematic. -/
def blockDataBytes (s : UniversalSchematic) : List Nat :=
  (get_merged_region s).blocks.flatMap (fun id => encode_varint (id % 2 ^ 32))

/-- The non-air palette entries convert_palette emits: each state whose
name is not minecraft air, keyed by its formatted key at its positional
id. -/
def nonAirKeyed (l : List (Nat × BlockState)) : NbtCompound :=
  (l.filter (fun p => !(p.2.name == "minecraft:air"))).map
    (fun p => (formatKey p.2, .int (p.1 : Int)))

/-- The maximum id convert_palette reports: the running maximum of the
non-air positional ids, starting at zero. -/
def maxNonAir (l : List (Nat × BlockState)) : Nat :=
  (l.filter (fun p => !(p.2.name == "minecraft:air"))).foldl
    (fun m p => max m p.1) 0

/-- The block state the palette assignment loop leaves at one slot: the
last compound entry whose id targets the slot, parsed, when one
exists. -/
def assignedVal : List (String × NbtTag) → Nat → Option BlockState
  | [], _ => none
  | (k, NbtTag.int id) :: rest, t =>
    (match assignedVal rest t with
     | some b => some b
     | none => if usizeOfI32 id = t then some (parse_block_state k) else none)
  | _ :: rest, t => assignedVal rest t

/-- The invariant the build operations maintain on the single default
region: the Main name, positive sizes, block entities keyed by their
own positions with distinct keys, and box corners representable in
i32. -/
def RegionInv (r : Region) : Prop :=
  r.name = "Main" ∧
  1 ≤ r.size.x ∧ 1 ≤ r.size.y ∧ 1 ≤ r.size.z ∧
  (∀ pb ∈ r.blockEntities, pb.1 = pb.2.position) ∧
  (r.blockEntities.map Prod.fst).Nodup ∧
  inI32 r.position.x = true ∧ inI32 r.position.y = true ∧ inI32 r.position.z = true ∧
  inI32 (r.position.x + r.size.x - 1) = true ∧
  inI32 (r.position.y + r.size.y - 1) = true ∧
  inI32 (r.position.z + r.size.z - 1) = true

/-- The invariant the build operations maintain on the whole schematic:
the Main default bucket, a well-formed deduplicated palette with air at
id 0, and at most the single Main region, satisfying the region
invariant. -/
def BuildInv (s : UniversalSchematic) : Prop :=
  s.default_region_name = "Main" ∧
  s.palette.states.get? 0 = some airState ∧
  s.palette.states.Nodup ∧
  (∀ b ∈ s.palette.states, stateWfB b = true) ∧
  (s.regions = [] ∨ ∃ r, s.regions = [("Main", r)] ∧ RegionInv r)

/-- The strengthening of the build invariant that holds after at least
one operation: the single Main region exists. -/
def BuildInvNE (s : UniversalSchematic) : Prop :=
  s.default_region_name = "Main" ∧
  s.palette.states.get? 0 = some airState ∧
  s.palette.states.Nodup ∧
  (∀ b ∈ s.palette.states, stateWfB b = true) ∧
  ∃ r, s.regions = [("Main", r)] ∧ RegionInv r

/-- The root compound to_schematic assembles, written as the explicit
field list that the fresh-key inserts produce. -/
def toRoot (s : UniversalSchematic) : NbtCompound :=
  [("Version", .int 2),
   ("DataVersion", .int (s.metadata.mc_version.getD 1343)),
   ("Width", .short ((wrapI16 s.get_bounding_box.get_dimensions.x).natAbs : Int)),
   ("Height", .short ((wrapI16 s.get_bounding_box.get_dimensions.y).natAbs : Int)),
   ("Length", .short ((wrapI16 s.get_bounding_box.get_dimensions.z).natAbs : Int)),
   ("Size", .intArray [wrapI32 s.get_bounding_box.get_dimensions.x,
                       wrapI32 s.get_bounding_box.get_dimensions.y,
                       wrapI32 s.get_bounding_box.get_dimensions.z]),
   ("Offset", .intArray [0, 0, 0]),
   ("Palette", .compound (convert_palette (get_merged_region s).palette).1),
   ("PaletteMax", .int (convert_palette (get_merged_region s).palette).2),
   ("BlockData", .byteArray ((blockDataBytes s).map i8OfU8)),
   ("BlockEntities", .list (s.regions.flatMap (fun e =>
     e.2.blockEntities.map (fun p => NbtTag.compound p.2.to_nbt)))),
   ("Entities", .list (s.regions.flatMap (fun e =>
     e.2.entities.map (fun en => NbtTag.compound en.to_nbt)))),
   ("Metadata", .compound s.metadata.to_nbt)]

/-! ## Monad reduction lemmas -/

theorem except_bind_err {ε α β : Type} (e : ε) (f : α → Except ε β) :
    (Except.error e : Except ε α) >>= f = .error e := rfl

theorem except_bind_ok {ε α β : Type} (a : α) (f : α → Except ε β) :
    (Except.ok a : Except ε α) >>= f = f a := rfl

/-! ## Varint lemmas -/

theorem and127_eq_mod (b : Nat) : b &&& 127 = b % 128 := by
  have h := Nat.and_pow_two_sub_one_eq_mod b 7
  norm_num at h
  exact h

theorem low_and127 {x : Nat} (h : x < 128) : x &&& 127 = x := by
  rw [and127_eq_mod]
  exact Nat.mod_eq_of_lt h

theorem low_and128 {x : Nat} (h : x < 128) : x &&& 128 = 0 := by
  have h2 := Nat.and_two_pow x 7
  norm_num at h2
  rw [h2]
  have : x.testBit 7 = false := Nat.testBit_lt_two_pow (by norm_num at h ⊢; omega)
  simp [this]

theorem cont_and127 {x : Nat} (h : x < 128) : (x + 128) &&& 127 = x := by
  rw [and127_eq_mod, Nat.add_mod_right]
  exact Nat.mod_eq_of_lt h

theorem cont_and128 {x : Nat} (h : x < 128) : (x + 128) &&& 128 = 128 := by
  have h2 := Nat.and_two_pow (x + 128) 7
  norm_num at h2
  rw [h2]
  have hb : (x + 128).testBit 7 = true := by
    have : x + 128 = 2 ^ 7 * 1 + x := by ring
    rw [this, Nat.testBit_mul_pow_two_add 1 h 7]
    simp
  simp [hb]

theorem lor_disjoint {a : Nat} (v s : Nat) (ha : a < 2 ^ s) :
    a ||| (v <<< s) = a + v * 2 ^ s := by
  rw [Nat.shiftLeft_eq]
  apply Nat.eq_of_testBit_eq
  intro j
  rw [Nat.testBit_lor]
  have hsum : a + v * 2 ^ s = 2 ^ s * v + a := by ring
  have hmul : v * 2 ^ s = 2 ^ s * v + 0 := by ring
  rw [hsum, Nat.testBit_mul_pow_two_add v ha j, hmul,
    Nat.testBit_mul_pow_two_add v (Nat.two_pow_pos s) j]
  by_cases hj : j < s
  · simp [hj, Nat.zero_testBit]
  · have : a.testBit j = false :=
      Nat.testBit_lt_two_pow (lt_of_lt_of_le ha (Nat.pow_le_pow_right (by norm_num) (by omega)))
    simp [hj, this]

theorem decode_encodeAux :
    ∀ (f v shift acc : Nat) (rest : List Nat),
      v < 128 ^ (f + 1) → shift + 7 * f ≤ 28 → acc < 2 ^ shift →
      decode_varint (encodeAux f v ++ rest) shift acc
        = .ok ((acc + v * 2 ^ shift) % 2 ^ 32, rest) := by
  intro f
  induction f with
  | zero =>
    intro v shift acc rest hv _ ha
    have hv' : v < 128 := by simpa using hv
    simp only [encodeAux, Nat.mod_eq_of_lt hv', List.cons_append, List.nil_append,
      decode_varint, low_and127 hv', low_and128 hv', lor_disjoint v shift ha]
    rfl
  | succ f ih =>
    intro v shift acc rest hv hs ha
    by_cases hlt : v < 128
    · simp only [encodeAux, if_pos hlt, List.cons_append, List.nil_append,
        decode_varint, low_and127 hlt, low_and128 hlt, lor_disjoint v shift ha]
      rfl
    · push_neg at hlt
      have hmod : v % 128 < 128 := Nat.mod_lt _ (by norm_num)
      have hacc' : acc + v % 128 * 2 ^ shift < 2 ^ (shift + 7) := by
        have : acc + v % 128 * 2 ^ shift < 2 ^ shift + 127 * 2 ^ shift := by
          have := Nat.mul_le_mul_right (2 ^ shift) (Nat.le_of_lt_succ hmod)
          omega
        calc acc + v % 128 * 2 ^ shift < 2 ^ shift + 127 * 2 ^ shift := this
          _ = 128 * 2 ^ shift := by ring
          _ = 2 ^ (shift + 7) := by rw [pow_add]; ring
      have hacc32 : acc + v % 128 * 2 ^ shift < 2 ^ 32 :=
        lt_of_lt_of_le hacc' (Nat.pow_le_pow_right (by norm_num) (by omega))
      have hdiv : v / 128 < 128 ^ (f + 1) := by
        rw [Nat.div_lt_iff_lt_mul (by norm_num : 0 < 128)]
        calc v < 128 ^ (f + 1 + 1) := hv
          _ = 128 ^ (f + 1) * 128 := by rw [pow_succ]
      have hrec := ih (v / 128) (shift + 7) (acc + v % 128 * 2 ^ shift) rest
        hdiv (by omega) hacc'
      simp only [encodeAux, if_neg (by omega : ¬ v < 128), List.cons_append,
        decode_varint, cont_and127 hmod, cont_and128 hmod,
        lor_disjoint (v % 128) shift ha, Nat.mod_eq_of_lt hacc32]
      have hcond : ¬ shift + 7 ≥ 32 := by omega
      simp only [if_neg (by simp : ¬ ((128:Nat) == 0) = true), if_neg hcond, hrec]
      have hsplit : 128 * (v / 128) + v % 128 = v := Nat.div_add_mod v 128
      have harith : acc + v % 128 * 2 ^ shift + v / 128 * 2 ^ (shift + 7)
          = acc + v * 2 ^ shift := by
        calc acc + v % 128 * 2 ^ shift + v / 128 * 2 ^ (shift + 7)
            = acc + (v % 128 + 128 * (v / 128)) * 2 ^ shift := by rw [pow_add]; ring
          _ = acc + v * 2 ^ shift := by rw [Nat.add_comm (v % 128), hsplit]
      rw [harith]

theorem encodeAux_fuel_mono :
    ∀ (f f' v : Nat), v < 128 ^ (f + 1) → f ≤ f' → encodeAux f' v = encodeAux f v := by
  intro f
  induction f with
  | zero =>
    intro f' v hv _
    have hv' : v < 128 := by simpa using hv
    cases f' with
    | zero => rfl
    | succ g => simp [encodeAux, if_pos hv', Nat.mod_eq_of_lt hv']
  | succ f ih =>
    intro f' v hv hle
    cases f' with
    | zero => omega
    | succ g =>
      by_cases hlt : v < 128
      · simp [encodeAux, if_pos hlt]
      · have hdiv : v / 128 < 128 ^ (f + 1) := by
          rw [Nat.div_lt_iff_lt_mul (by norm_num : 0 < 128)]
          calc v < 128 ^ (f + 1 + 1) := hv
            _ = 128 ^ (f + 1) * 128 := by rw [pow_succ]
        simp [encodeAux, if_neg hlt, ih g (v / 128) hdiv (by omega)]

theorem decode_encode_varint {v : Nat} (rest : List Nat) (h : v < 2 ^ 32) :
    decode_varint (encode_varint v ++ rest) 0 0 = .ok (v, rest) := by
  have h5 : v < 128 ^ (4 + 1) := by
    calc v < 2 ^ 32 := h
      _ ≤ 128 ^ 5 := by norm_num
  unfold encode_varint
  rw [encodeAux_fuel_mono 4 5 v h5 (by omega),
    decode_encodeAux 4 v 0 0 rest h5 (by omega) (by norm_num)]
  have h32 : v < 4294967296 := by norm_num at h; exact h
  simp [Nat.mod_eq_of_lt h32]

theorem encodeAux_length_pos (f v : Nat) : 1 ≤ (encodeAux f v).length := by
  cases f with
  | zero => simp [encodeAux]
  | succ g =>
    by_cases hlt : v < 128
    · simp [encodeAux, if_pos hlt]
    · simp [encodeAux, if_neg hlt]

theorem encodeAux_length_bound :
    ∀ (f v : Nat), v < 128 ^ (f + 1) → v < 2 ^ (7 * (encodeAux f v).length) := by
  intro f
  induction f with
  | zero =>
    intro v hv
    have hv' : v < 128 := by simpa using hv
    simp only [encodeAux, List.length_singleton]
    norm_num
    exact hv'
  | succ f ih =>
    intro v hv
    by_cases hlt : v < 128
    · simp only [encodeAux, if_pos hlt, List.length_singleton]
      norm_num
      exact hlt
    · have hdiv : v / 128 < 128 ^ (f + 1) := by
        rw [Nat.div_lt_iff_lt_mul (by norm_num : 0 < 128)]
        calc v < 128 ^ (f + 1 + 1) := hv
          _ = 128 ^ (f + 1) * 128 := by rw [pow_succ]
      have hrec := ih (v / 128) hdiv
      simp only [encodeAux, if_neg hlt, List.length_cons]
      have hstep : v < 128 * 2 ^ (7 * (encodeAux f (v / 128)).length) := by
        have h1 : v / 128 + 1 ≤ 2 ^ (7 * (encodeAux f (v / 128)).length) := hrec
        have h2 : v < 128 * (v / 128 + 1) := by
          have := Nat.div_add_mod v 128
          have := Nat.mod_lt v (by norm_num : 0 < 128)
          omega
        calc v < 128 * (v / 128 + 1) := h2
          _ ≤ 128 * 2 ^ (7 * (encodeAux f (v / 128)).length) :=
            Nat.mul_le_mul_left 128 h1
      calc v < 128 * 2 ^ (7 * (encodeAux f (v / 128)).length) := hstep
        _ = 2 ^ (7 * ((encodeAux f (v / 128)).length + 1)) := by
          rw [Nat.mul_add, pow_add]; ring

theorem encodeAux_length_min :
    ∀ (f v m : Nat), v < 128 ^ (f + 1) → 1 ≤ m → v < 2 ^ (7 * m) →
      (encodeAux f v).length ≤ m := by
  intro f
  induction f with
  | zero =>
    intro v m _ hm _
    simp only [encodeAux, List.length_singleton]
    omega
  | succ f ih =>
    intro v m hv hm hvm
    by_cases hlt : v < 128
    · simp only [encodeAux, if_pos hlt, List.length_singleton]
      omega
    · have hdiv : v / 128 < 128 ^ (f + 1) := by
        rw [Nat.div_lt_iff_lt_mul (by norm_num : 0 < 128)]
        calc v < 128 ^ (f + 1 + 1) := hv
          _ = 128 ^ (f + 1) * 128 := by rw [pow_succ]
      have hm2 : 2 ≤ m := by
        by_contra hc
        have : m = 1 := by omega
        rw [this] at hvm
        norm_num at hvm
        omega
      have hdm : v / 128 < 2 ^ (7 * (m - 1)) := by
        rw [Nat.div_lt_iff_lt_mul (by norm_num : 0 < 128)]
        have : 2 ^ (7 * (m - 1)) * 128 = 2 ^ (7 * m) := by
          rw [show (128 : Nat) = 2 ^ 7 by norm_num, ← pow_add]
          congr 1
          omega
        rw [this]
        exact hvm
      have := ih (v / 128) (m - 1) hdiv (by omega) hdm
      simp only [encodeAux, if_neg hlt, List.length_cons]
      omega

theorem decode_reads :
    ∀ (pre : List Nat) (b : Nat) (rest : List Nat) (shift acc : Nat),
      (∀ x ∈ pre, x &&& 128 ≠ 0) → b &&& 128 = 0 →
      shift + 7 * pre.length ≤ 28 → acc < 2 ^ shift →
      decode_varint (pre ++ b :: rest) shift acc
        = .ok ((acc + gval (pre ++ [b]) * 2 ^ shift) % 2 ^ 32, rest) := by
  intro pre
  induction pre with
  | nil =>
    intro b rest shift acc _ hb _ ha
    have hb127 : b &&& 127 < 128 := by
      rw [and127_eq_mod]
      exact Nat.mod_lt _ (by norm_num)
    simp only [List.nil_append, decode_varint, hb, beq_self_eq_true, if_pos,
      lor_disjoint (b &&& 127) shift ha]
    simp [gval]
  | cons p pre ih =>
    intro b rest shift acc hpre hb hs ha
    have hp : p &&& 128 ≠ 0 := hpre p (List.mem_cons_self p pre)
    have hp127 : p &&& 127 < 128 := by
      rw [and127_eq_mod]
      exact Nat.mod_lt _ (by norm_num)
    have hacc' : acc + (p &&& 127) * 2 ^ shift < 2 ^ (shift + 7) := by
      have h1 : (p &&& 127) * 2 ^ shift ≤ 127 * 2 ^ shift :=
        Nat.mul_le_mul_right _ (by omega)
      calc acc + (p &&& 127) * 2 ^ shift < 2 ^ shift + 127 * 2 ^ shift := by omega
        _ = 2 ^ (shift + 7) := by rw [pow_add]; ring
    have hlen : shift + 7 * pre.length + 7 ≤ 28 := by
      simp only [List.length_cons] at hs
      omega
    have hacc32 : acc + (p &&& 127) * 2 ^ shift < 2 ^ 32 :=
      lt_of_lt_of_le hacc' (Nat.pow_le_pow_right (by norm_num) (by omega))
    have hrec := ih b rest (shift + 7) (acc + (p &&& 127) * 2 ^ shift)
      (fun x hx => hpre x (List.mem_cons_of_mem p hx)) hb (by omega) hacc'
    simp only [List.cons_append, decode_varint,
      lor_disjoint (p &&& 127) shift ha, Nat.mod_eq_of_lt hacc32]
    have hpneq : (p &&& 128 == 0) = false := by
      simp [hp]
    rw [hpneq]
    simp only [Bool.false_eq_true, if_neg (by omega : ¬ shift + 7 ≥ 32), if_false]
    have harith : acc + (p &&& 127) * 2 ^ shift + gval (pre ++ [b]) * 2 ^ (shift + 7)
        = acc + gval (p :: pre ++ [b]) * 2 ^ shift := by
      have hg : gval (p :: (pre ++ [b])) = gval (pre ++ [b]) * 128 + (p &&& 127) := by
        simp [gval]
      simp only [List.cons_append, hg, pow_add]
      ring
    rw [List.append_eq, hrec, harith]
    simp

theorem decode_overlong (b1 b2 b3 b4 b5 : Nat) (rest : List Nat)
    (h1 : b1 &&& 128 ≠ 0) (h2 : b2 &&& 128 ≠ 0) (h3 : b3 &&& 128 ≠ 0)
    (h4 : b4 &&& 128 ≠ 0) (h5 : b5 &&& 128 ≠ 0) :
    decode_varint (b1 :: b2 :: b3 :: b4 :: b5 :: rest) 0 0
      = .error "Varint is too long" := by
  simp only [decode_varint]
  rw [show (b1 &&& 128 == 0) = false by simp [h1]]
  rw [show (b2 &&& 128 == 0) = false by simp [h2]]
  rw [show (b3 &&& 128 == 0) = false by simp [h3]]
  rw [show (b4 &&& 128 == 0) = false by simp [h4]]
  rw [show (b5 &&& 128 == 0) = false by simp [h5]]
  norm_num

theorem decode_consumes :
    ∀ (bs : List Nat) (shift acc v : Nat) (rest : List Nat), shift < 32 →
      decode_varint bs shift acc = .ok (v, rest) →
      ∃ k, 1 ≤ k ∧ shift + 7 * (k - 1) < 32 ∧ rest = bs.drop k := by
  intro bs
  induction bs with
  | nil =>
    intro shift acc v rest _ hd
    simp [decode_varint] at hd
  | cons b t ih =>
    intro shift acc v rest hshift hd
    simp only [decode_varint] at hd
    by_cases hb : (b &&& 128 == 0) = true
    · rw [if_pos hb] at hd
      refine ⟨1, by omega, by omega, ?_⟩
      simp only [Except.ok.injEq, Prod.mk.injEq] at hd
      simp [hd.2.symm]
    · rw [if_neg hb] at hd
      by_cases hsh : shift + 7 ≥ 32
      · rw [if_pos hsh] at hd
        simp at hd
      · rw [if_neg hsh] at hd
        obtain ⟨k, hk1, hk2, hk3⟩ := ih (shift + 7) _ v rest (by omega) hd
        refine ⟨k + 1, by omega, by omega, ?_⟩
        simpa using hk3

/-! ## Block-data stream lemmas -/

theorem encodeAux_ne_nil (f v : Nat) : encodeAux f v ≠ [] := by
  have := encodeAux_length_pos f v
  intro h
  rw [h] at this
  simp at this

theorem encodeAux_lt_256 (f v : Nat) : ∀ b ∈ encodeAux f v, b < 256 := by
  induction f generalizing v with
  | zero =>
    intro b hb
    simp only [encodeAux, List.mem_singleton] at hb
    have := Nat.mod_lt v (by norm_num : 0 < 128)
    omega
  | succ f ih =>
    intro b hb
    by_cases hlt : v < 128
    · simp only [encodeAux, if_pos hlt, List.mem_singleton] at hb
      omega
    · simp only [encodeAux, if_neg hlt, List.mem_cons] at hb
      rcases hb with hb | hb
      · have := Nat.mod_lt v (by norm_num : 0 < 128)
        omega
      · exact ih (v / 128) b hb

theorem u8OfI8_i8OfU8 {b : Nat} (h : b < 256) : u8OfI8 (i8OfU8 b) = b := by
  unfold i8OfU8 u8OfI8
  by_cases hlt : b < 128
  · rw [if_pos hlt]
    omega
  · rw [if_neg hlt]
    omega

theorem map_u8_i8_roundtrip (bs : List Nat) (h : ∀ b ∈ bs, b < 256) :
    (bs.map i8OfU8).map u8OfI8 = bs := by
  induction bs with
  | nil => rfl
  | cons b t ih =>
    simp only [List.map_cons, List.cons.injEq]
    exact ⟨u8OfI8_i8OfU8 (h b (List.mem_cons_self b t)),
      ih (fun x hx => h x (List.mem_cons_of_mem b hx))⟩

theorem decodeBlockLoop_fuel_irrel :
    ∀ (f f' : Nat) (bs : List Nat), bs.length ≤ f → bs.length ≤ f' →
      decodeBlockLoop f bs = decodeBlockLoop f' bs := by
  intro f
  induction f with
  | zero =>
    intro f' bs hf _
    have : bs = [] := List.length_eq_zero.mp (by omega)
    subst this
    cases f' <;> rfl
  | succ f ih =>
    intro f' bs hf hf'
    cases bs with
    | nil => cases f' <;> rfl
    | cons b t =>
      cases f' with
      | zero => simp at hf'
      | succ g =>
        simp only [decodeBlockLoop]
        cases hd : decode_varint (b :: t) 0 0 with
        | error e => rfl
        | ok p =>
          obtain ⟨v, rest2⟩ := p
          obtain ⟨k, hk1, _, hk3⟩ := decode_consumes (b :: t) 0 0 v rest2 (by norm_num) hd
          have hlen : rest2.length ≤ t.length := by
            rw [hk3]
            simp only [List.length_drop, List.length_cons]
            omega
          simp only [List.length_cons] at hf hf'
          dsimp only
          rw [ih g rest2 (by omega) (by omega)]

theorem decodeBlockLoop_flat :
    ∀ (ids rest : List Nat) (fuel : Nat),
      (∀ id ∈ ids, id < 2 ^ 32) →
      (ids.flatMap encode_varint ++ rest).length ≤ fuel →
      decodeBlockLoop fuel (ids.flatMap encode_varint ++ rest)
        = ids ++ decodeBlockLoop rest.length rest := by
  intro ids
  induction ids with
  | nil =>
    intro rest fuel _ hlen
    simp only [List.flatMap_nil, List.nil_append] at hlen ⊢
    exact decodeBlockLoop_fuel_irrel fuel rest.length rest hlen le_rfl
  | cons id ids ih =>
    intro rest fuel hids hlen
    have hid : id < 2 ^ 32 := hids id (List.mem_cons_self id ids)
    have hflat : (id :: ids).flatMap encode_varint
        = encode_varint id ++ ids.flatMap encode_varint := by
      simp [List.flatMap_cons]
    obtain ⟨e0, et, henc⟩ : ∃ e0 et, encode_varint id = e0 :: et := by
      cases h : encode_varint id with
      | nil => exact absurd h (encodeAux_ne_nil 5 id)
      | cons a b => exact ⟨a, b, rfl⟩
    rw [hflat] at hlen ⊢
    have hdec := decode_encode_varint (v := id) (ids.flatMap encode_varint ++ rest) hid
    rw [henc] at hdec hlen ⊢
    simp only [List.cons_append, List.append_assoc] at hdec hlen ⊢
    cases fuel with
    | zero => simp at hlen
    | succ f =>
      simp only [decodeBlockLoop, hdec]
      have hrec := ih rest f (fun x hx => hids x (List.mem_cons_of_mem id hx)) (by
        simp only [List.length_append, List.length_cons] at hlen ⊢
        omega)
      rw [hrec]

theorem decodeBlockLoop_overlong (fuel : Nat) (junk : List Nat) :
    decodeBlockLoop fuel (128 :: 128 :: 128 :: 128 :: 128 :: junk) = [] := by
  cases fuel with
  | zero => rfl
  | succ f =>
    simp only [decodeBlockLoop]
    rw [decode_overlong 128 128 128 128 128 junk (by decide) (by decide) (by decide)
      (by decide) (by decide)]

theorem decodeAllExcept_flat :
    ∀ (ids : List Nat) (fuel : Nat),
      (∀ id ∈ ids, id < 2 ^ 32) →
      (ids.flatMap encode_varint).length ≤ fuel →
      decodeAllExcept fuel (ids.flatMap encode_varint) = .ok ids := by
  intro ids
  induction ids with
  | nil =>
    intro fuel _ _
    cases fuel <;> rfl
  | cons id ids ih =>
    intro fuel hids hlen
    have hid : id < 2 ^ 32 := hids id (List.mem_cons_self id ids)
    have hflat : (id :: ids).flatMap encode_varint
        = encode_varint id ++ ids.flatMap encode_varint := by
      simp [List.flatMap_cons]
    obtain ⟨e0, et, henc⟩ : ∃ e0 et, encode_varint id = e0 :: et := by
      cases h : encode_varint id with
      | nil => exact absurd h (encodeAux_ne_nil 5 id)
      | cons a b => exact ⟨a, b, rfl⟩
    rw [hflat] at hlen ⊢
    have hdec := decode_encode_varint (v := id) (ids.flatMap encode_varint) hid
    rw [henc] at hdec hlen ⊢
    simp only [List.cons_append] at hdec hlen ⊢
    cases fuel with
    | zero => simp at hlen
    | succ f =>
      simp only [decodeAllExcept, hdec]
      have hrec := ih f (fun x hx => hids x (List.mem_cons_of_mem id hx)) (by
        simp only [List.length_append, List.length_cons] at hlen ⊢
        omega)
      rw [hrec]
      rfl

/-! ## Palette key string lemmas -/

theorem splitOnceChar_not_mem {c : Char} :
    ∀ l : List Char, c ∉ l → splitOnceChar c l = none := by
  intro l
  induction l with
  | nil => intro _; rfl
  | cons x xs ih =>
    intro h
    have hx : ¬ x = c := fun he => h (he ▸ List.mem_cons_self x xs)
    have hxs : c ∉ xs := fun hm => h (List.mem_cons_of_mem x hm)
    simp [splitOnceChar, hx, ih hxs]

theorem splitOnceChar_append {c : Char} :
    ∀ l1 l2 : List Char, c ∉ l1 →
      splitOnceChar c (l1 ++ c :: l2) = some (l1, l2) := by
  intro l1
  induction l1 with
  | nil => intro l2 _; simp [splitOnceChar]
  | cons x xs ih =>
    intro l2 h
    have hx : ¬ x = c := fun he => h (he ▸ List.mem_cons_self x xs)
    have hxs : c ∉ xs := fun hm => h (List.mem_cons_of_mem x hm)
    simp [splitOnceChar, hx, ih l2 hxs]

theorem dropWhile_of_all_not {p : Char → Bool} :
    ∀ l : List Char, (∀ x ∈ l, p x = false) → l.dropWhile p = l := by
  intro l
  induction l with
  | nil => intro _; rfl
  | cons x xs _ =>
    intro h
    simp [List.dropWhile_cons, h x (List.mem_cons_self x xs)]

theorem mem_joinChar {c : Char} {x : Char} :
    ∀ gs : List (List Char), x ∈ joinChar c gs →
      x = c ∨ ∃ g ∈ gs, x ∈ g := by
  intro gs
  induction gs with
  | nil => intro h; simp [joinChar] at h
  | cons g gs ih =>
    intro h
    cases gs with
    | nil =>
      simp only [joinChar] at h
      exact Or.inr ⟨g, List.mem_singleton.mpr rfl, h⟩
    | cons g2 gs2 =>
      simp only [joinChar, List.mem_append, List.mem_cons] at h
      rcases h with h | h | h
      · exact Or.inr ⟨g, List.mem_cons_self _ _, h⟩
      · exact Or.inl h
      · rcases ih h with h2 | ⟨g3, hg3, hx3⟩
        · exact Or.inl h2
        · exact Or.inr ⟨g3, List.mem_cons_of_mem _ hg3, hx3⟩

theorem splitOnChar_not_mem {c : Char} :
    ∀ g : List Char, c ∉ g → splitOnChar c g = [g] := by
  intro g
  induction g with
  | nil => intro _; rfl
  | cons x xs ih =>
    intro hg
    have hx : ¬ x = c := fun he => hg (he ▸ List.mem_cons_self x xs)
    have hxs : c ∉ xs := fun hm => hg (List.mem_cons_of_mem x hm)
    simp only [splitOnChar, ih hxs, if_neg hx]

theorem splitOnChar_append_sep {c : Char} :
    ∀ (g rest : List Char), c ∉ g →
      splitOnChar c (g ++ c :: rest) = g :: splitOnChar c rest := by
  intro g
  induction g with
  | nil =>
    intro rest _
    simp only [List.nil_append, splitOnChar, if_pos rfl]
    cases h : splitOnChar c rest with
    | nil =>
      cases rest with
      | nil => simp [splitOnChar] at h
      | cons y ys =>
        exfalso
        simp only [splitOnChar] at h
        rcases hsp : splitOnChar c ys with _ | ⟨g2, gs2⟩ <;> rw [hsp] at h
        · simp at h
        · by_cases hy : y = c <;> simp [hy] at h
    | cons g2 gs2 => rfl
  | cons x xs ih =>
    intro rest hg
    have hx : ¬ x = c := fun he => hg (he ▸ List.mem_cons_self x xs)
    have hxs : c ∉ xs := fun hm => hg (List.mem_cons_of_mem x hm)
    simp only [List.cons_append, splitOnChar, List.append_eq, ih rest hxs, if_neg hx]

theorem splitOnChar_joinChar {c : Char} :
    ∀ gs : List (List Char), gs ≠ [] → (∀ g ∈ gs, c ∉ g) →
      splitOnChar c (joinChar c gs) = gs := by
  intro gs
  induction gs with
  | nil => intro h _; exact absurd rfl h
  | cons g gs ih =>
    intro _ hfree
    cases gs with
    | nil =>
      simp only [joinChar]
      exact splitOnChar_not_mem g (hfree g (List.mem_singleton.mpr rfl))
    | cons g2 gs2 =>
      simp only [joinChar]
      rw [splitOnChar_append_sep g _ (hfree g (List.mem_cons_self _ _))]
      rw [ih (by simp) (fun g' hg' => hfree g' (List.mem_cons_of_mem _ hg'))]

theorem string_mk_toList (s : String) : String.mk s.toList = s := rfl

theorem toList_string_mk (l : List Char) : (String.mk l).toList = l := rfl

theorem filterMap_props (props : List (String × String))
    (hwfp : ∀ p ∈ props, '=' ∉ p.1.toList ∧
      trimChars p.1.toList = p.1.toList ∧ trimChars p.2.toList = p.2.toList) :
    (props.map (fun p => p.1.toList ++ '=' :: p.2.toList)).filterMap
      (fun g =>
        match splitOnceChar '=' g with
        | some (k, v) => some (String.mk (trimChars k), String.mk (trimChars v))
        | none => none) = props := by
  induction props with
  | nil => rfl
  | cons p ps ih =>
    obtain ⟨hk, hkt, hvt⟩ := hwfp p (List.mem_cons_self _ _)
    rw [List.map_cons, List.filterMap_cons]
    have hhead : (match splitOnceChar '=' (p.1.toList ++ '=' :: p.2.toList) with
        | some (k, v) => some (String.mk (trimChars k), String.mk (trimChars v))
        | none => none) = some p := by
      simp only [splitOnceChar_append _ _ hk, hkt, hvt, string_mk_toList]
    rw [hhead, ih (fun q hq => hwfp q (List.mem_cons_of_mem _ hq))]

theorem parse_formatKey (b : BlockState) (hwf : stateWfB b = true) :
    parse_block_state (formatKey b) = b := by
  unfold stateWfB at hwf
  simp only [Bool.and_eq_true, List.all_eq_true] at hwf
  obtain ⟨⟨hname, _⟩, hprops⟩ := hwf
  have hnameFree : '[' ∉ b.name.toList := by
    intro hm
    have := hname '[' hm
    simp at this
  by_cases hempty : b.properties = []
  · unfold formatKey
    rw [if_pos (by simp [hempty])]
    unfold parse_block_state
    rw [splitOnceChar_not_mem b.name.toList hnameFree]
    cases b with
    | mk n p =>
      simp only at hempty
      simp [BlockState.new, hempty]
  · have hkey : (formatKey b).toList
        = b.name.toList ++ '[' ::
          (joinChar ',' (b.properties.map (fun p => p.1.toList ++ '=' :: p.2.toList))
            ++ [']']) := by
      unfold formatKey
      rw [if_neg (by simp [hempty])]
      rw [toList_string_mk]
      simp [List.cons_append, List.append_assoc]
    unfold parse_block_state
    rw [hkey, splitOnceChar_append _ _ hnameFree]
    dsimp only
    have hjoin_free : ']' ∉ joinChar ','
        (b.properties.map (fun p => p.1.toList ++ '=' :: p.2.toList)) := by
      intro hm
      rcases mem_joinChar _ hm with h | ⟨g, hg, hxg⟩
      · simp at h
      · rw [List.mem_map] at hg
        obtain ⟨p, hp, hpg⟩ := hg
        have hpwf := hprops p hp
        simp only [Bool.and_eq_true, List.all_eq_true] at hpwf
        obtain ⟨⟨⟨hk, _⟩, hv⟩, _⟩ := hpwf
        rw [← hpg] at hxg
        rw [List.mem_append] at hxg
        rcases hxg with h | h
        · have := hk ']' h
          simp at this
        · rw [List.mem_cons] at h
          rcases h with h | h
          · simp at h
          · have := hv ']' h
            simp at this
    have hdrop : ((joinChar ','
        (b.properties.map (fun p => p.1.toList ++ '=' :: p.2.toList)) ++ [']']).reverse.dropWhile
          (fun c => c = ']')).reverse
        = joinChar ',' (b.properties.map (fun p => p.1.toList ++ '=' :: p.2.toList)) := by
      rw [List.reverse_append]
      simp only [List.reverse_singleton, List.singleton_append, List.dropWhile_cons]
      rw [if_pos (by simp)]
      rw [dropWhile_of_all_not _ (by
        intro x hx
        rw [List.mem_reverse] at hx
        simp only [decide_eq_false_iff_not]
        intro he
        exact hjoin_free (he ▸ hx))]
      simp
    rw [hdrop]
    have hsplit : splitOnChar ','
        (joinChar ',' (b.properties.map (fun p => p.1.toList ++ '=' :: p.2.toList)))
        = b.properties.map (fun p => p.1.toList ++ '=' :: p.2.toList) := by
      apply splitOnChar_joinChar
      · simp [hempty]
      · intro g hg
        rw [List.mem_map] at hg
        obtain ⟨p, hp, hpg⟩ := hg
        have hpwf := hprops p hp
        simp only [Bool.and_eq_true, List.all_eq_true] at hpwf
        obtain ⟨⟨⟨hk, _⟩, hv⟩, _⟩ := hpwf
        rw [← hpg]
        intro hm
        rw [List.mem_append] at hm
        rcases hm with h | h
        · have := hk ',' h
          simp at this
        · rw [List.mem_cons] at h
          rcases h with h | h
          · simp at h
          · have := hv ',' h
            simp at this
    rw [hsplit]
    rw [filterMap_props b.properties (by
      intro p hp
      have hpwf := hprops p hp
      simp only [Bool.and_eq_true, List.all_eq_true] at hpwf
      obtain ⟨⟨⟨hk, hktrim⟩, _⟩, hvtrim⟩ := hpwf
      refine ⟨?_, ?_, ?_⟩
      · intro hm
        have := hk '=' hm
        simp at this
      · rw [beq_iff_eq] at hktrim
        exact hktrim
      · rw [beq_iff_eq] at hvtrim
        exact hvtrim)]
    rfl

theorem parse_air : parse_block_state "minecraft:air" = airState := rfl

theorem formatKey_injective {b1 b2 : BlockState}
    (h1 : stateWfB b1 = true) (h2 : stateWfB b2 = true)
    (heq : formatKey b1 = formatKey b2) : b1 = b2 := by
  have := parse_formatKey b1 h1
  rw [heq, parse_formatKey b2 h2] at this
  exact this.symm

theorem formatKey_ne_air {b : BlockState} (hwf : stateWfB b = true)
    (hne : b.name ≠ "minecraft:air") : formatKey b ≠ "minecraft:air" := by
  intro heq
  have := parse_formatKey b hwf
  rw [heq, parse_air] at this
  rw [← this] at hne
  exact hne rfl

/-! ## Dedup and index lemmas -/

theorem memBS_iff (l : List BlockState) (b : BlockState) :
    memBS l b = true ↔ b ∈ l := by
  unfold memBS
  rw [List.any_eq_true]
  constructor
  · rintro ⟨x, hx, he⟩
    rw [decide_eq_true_eq] at he
    exact he ▸ hx
  · intro h
    exact ⟨b, h, by simp⟩

theorem idxOfBS_lt {l : List BlockState} {b : BlockState} (h : b ∈ l) :
    idxOfBS l b < l.length := by
  induction l with
  | nil => simp at h
  | cons x xs ih =>
    by_cases he : x = b
    · simp [idxOfBS, he]
    · rw [List.mem_cons] at h
      rcases h with h | h
      · exact absurd h.symm he
      · simp only [idxOfBS, if_neg he, List.length_cons]
        have := ih h
        omega

theorem get_idxOfBS {l : List BlockState} {b : BlockState} (h : b ∈ l) :
    l.get? (idxOfBS l b) = some b := by
  induction l with
  | nil => simp at h
  | cons x xs ih =>
    by_cases he : x = b
    · simp [idxOfBS, he]
    · rw [List.mem_cons] at h
      rcases h with h | h
      · exact absurd h.symm he
      · simp only [idxOfBS, if_neg he]
        exact ih h

theorem dedup_mem_acc :
    ∀ (l acc : List BlockState) (x : BlockState), x ∈ acc →
      x ∈ l.foldl (fun acc b => if memBS acc b then acc else acc ++ [b]) acc := by
  intro l
  induction l with
  | nil => intro acc x h; exact h
  | cons b t ih =>
    intro acc x h
    simp only [List.foldl_cons]
    by_cases hm : memBS acc b
    · rw [if_pos hm]
      exact ih acc x h
    · rw [if_neg hm]
      exact ih (acc ++ [b]) x (List.mem_append_left _ h)

theorem dedup_mem_of_mem :
    ∀ (l acc : List BlockState) (x : BlockState), x ∈ l →
      x ∈ l.foldl (fun acc b => if memBS acc b then acc else acc ++ [b]) acc := by
  intro l
  induction l with
  | nil => intro acc x h; simp at h
  | cons b t ih =>
    intro acc x h
    simp only [List.foldl_cons]
    rw [List.mem_cons] at h
    by_cases hm : memBS acc b
    · rw [if_pos hm]
      rcases h with h | h
      · exact dedup_mem_acc t acc x (h ▸ (memBS_iff acc b).mp hm)
      · exact ih acc x h
    · rw [if_neg hm]
      rcases h with h | h
      · exact dedup_mem_acc t (acc ++ [b]) x
          (h ▸ List.mem_append_right _ (List.mem_singleton.mpr rfl))
      · exact ih (acc ++ [b]) x h

theorem dedup_mem_inv :
    ∀ (l acc : List BlockState) (x : BlockState),
      x ∈ l.foldl (fun acc b => if memBS acc b then acc else acc ++ [b]) acc →
      x ∈ acc ∨ x ∈ l := by
  intro l
  induction l with
  | nil => intro acc x h; exact Or.inl h
  | cons b t ih =>
    intro acc x h
    simp only [List.foldl_cons] at h
    by_cases hm : memBS acc b
    · rw [if_pos hm] at h
      rcases ih acc x h with h2 | h2
      · exact Or.inl h2
      · exact Or.inr (List.mem_cons_of_mem _ h2)
    · rw [if_neg hm] at h
      rcases ih (acc ++ [b]) x h with h2 | h2
      · rw [List.mem_append] at h2
        rcases h2 with h2 | h2
        · exact Or.inl h2
        · exact Or.inr (List.mem_cons.mpr (Or.inl (List.mem_singleton.mp h2)))
      · exact Or.inr (List.mem_cons_of_mem _ h2)

theorem dedup_nodup :
    ∀ (l acc : List BlockState), acc.Nodup →
      (l.foldl (fun acc b => if memBS acc b then acc else acc ++ [b]) acc).Nodup := by
  intro l
  induction l with
  | nil => intro acc h; exact h
  | cons b t ih =>
    intro acc h
    simp only [List.foldl_cons]
    by_cases hm : memBS acc b
    · rw [if_pos hm]
      exact ih acc h
    · rw [if_neg hm]
      apply ih
      rw [List.nodup_append]
      refine ⟨h, List.nodup_singleton b, ?_⟩
      intro x hx hb
      rw [List.mem_singleton] at hb
      subst hb
      exact hm ((memBS_iff acc x).mpr hx)

theorem mem_dedupFirst {l : List BlockState} {x : BlockState} :
    x ∈ dedupFirst l ↔ x ∈ l := by
  unfold dedupFirst
  constructor
  · intro h
    rcases dedup_mem_inv l [] x h with h2 | h2
    · simp at h2
    · exact h2
  · intro h
    exact dedup_mem_of_mem l [] x h

theorem dedupFirst_nodup (l : List BlockState) : (dedupFirst l).Nodup :=
  dedup_nodup l [] List.nodup_nil

/-! ## Palette fill lemmas -/

theorem usizeOfI32_ofNat {N : Nat} (h : N < 2 ^ 64) : usizeOfI32 (N : Int) = N := by
  unfold usizeOfI32
  omega

theorem paletteFill_length_unmapped :
    ∀ (entries : List (String × NbtTag)) (acc : List BlockState),
      (∀ p ∈ entries, ∀ id : Int, p.2 = NbtTag.int id → usizeOfI32 id < acc.length) →
      ∃ res, paletteFill entries acc = .ok res ∧ res.length = acc.length ∧
        ∀ i : Nat,
          (∀ p ∈ entries, ∀ id : Int, p.2 = NbtTag.int id → usizeOfI32 id ≠ i) →
          res.get? i = acc.get? i := by
  intro entries
  induction entries with
  | nil =>
    intro acc _
    exact ⟨acc, rfl, rfl, fun _ _ => rfl⟩
  | cons e rest ih =>
    intro acc hin
    obtain ⟨k, tag⟩ := e
    cases tag with
    | int id =>
      have hlt : usizeOfI32 id < acc.length :=
        hin (k, .int id) (List.mem_cons_self _ _) id rfl
      have hin' : ∀ p ∈ rest, ∀ id' : Int, p.2 = NbtTag.int id' →
          usizeOfI32 id' < (acc.set (usizeOfI32 id) (parse_block_state k)).length := by
        intro p hp id' hid'
        rw [List.length_set]
        exact hin p (List.mem_cons_of_mem _ hp) id' hid'
      obtain ⟨res, hres, hlen, hun⟩ := ih (acc.set (usizeOfI32 id) (parse_block_state k)) hin'
      refine ⟨res, ?_, ?_, ?_⟩
      · simp only [paletteFill, if_pos hlt]
        exact hres
      · rw [hlen, List.length_set]
      · intro i hi
        have hid_ne : usizeOfI32 id ≠ i :=
          hi (k, .int id) (List.mem_cons_self _ _) id rfl
        rw [hun i (fun p hp id' hid' => hi p (List.mem_cons_of_mem _ hp) id' hid')]
        rw [List.get?_eq_getElem?, List.get?_eq_getElem?, List.getElem?_set_ne hid_ne]
    | byte v =>
      obtain ⟨res, hres, hlen, hun⟩ := ih acc
        (fun p hp id' hid' => hin p (List.mem_cons_of_mem _ hp) id' hid')
      exact ⟨res, hres, hlen, fun i hi =>
        hun i (fun p hp id' hid' => hi p (List.mem_cons_of_mem _ hp) id' hid')⟩
    | short v =>
      obtain ⟨res, hres, hlen, hun⟩ := ih acc
        (fun p hp id' hid' => hin p (List.mem_cons_of_mem _ hp) id' hid')
      exact ⟨res, hres, hlen, fun i hi =>
        hun i (fun p hp id' hid' => hi p (List.mem_cons_of_mem _ hp) id' hid')⟩
    | long v =>
      obtain ⟨res, hres, hlen, hun⟩ := ih acc
        (fun p hp id' hid' => hin p (List.mem_cons_of_mem _ hp) id' hid')
      exact ⟨res, hres, hlen, fun i hi =>
        hun i (fun p hp id' hid' => hi p (List.mem_cons_of_mem _ hp) id' hid')⟩
    | double v =>
      obtain ⟨res, hres, hlen, hun⟩ := ih acc
        (fun p hp id' hid' => hin p (List.mem_cons_of_mem _ hp) id' hid')
      exact ⟨res, hres, hlen, fun i hi =>
        hun i (fun p hp id' hid' => hi p (List.mem_cons_of_mem _ hp) id' hid')⟩
    | string s =>
      obtain ⟨res, hres, hlen, hun⟩ := ih acc
        (fun p hp id' hid' => hin p (List.mem_cons_of_mem _ hp) id' hid')
      exact ⟨res, hres, hlen, fun i hi =>
        hun i (fun p hp id' hid' => hi p (List.mem_cons_of_mem _ hp) id' hid')⟩
    | byteArray v =>
      obtain ⟨res, hres, hlen, hun⟩ := ih acc
        (fun p hp id' hid' => hin p (List.mem_cons_of_mem _ hp) id' hid')
      exact ⟨res, hres, hlen, fun i hi =>
        hun i (fun p hp id' hid' => hi p (List.mem_cons_of_mem _ hp) id' hid')⟩
    | intArray v =>
      obtain ⟨res, hres, hlen, hun⟩ := ih acc
        (fun p hp id' hid' => hin p (List.mem_cons_of_mem _ hp) id' hid')
      exact ⟨res, hres, hlen, fun i hi =>
        hun i (fun p hp id' hid' => hi p (List.mem_cons_of_mem _ hp) id' hid')⟩
    | list v =>
      obtain ⟨res, hres, hlen, hun⟩ := ih acc
        (fun p hp id' hid' => hin p (List.mem_cons_of_mem _ hp) id' hid')
      exact ⟨res, hres, hlen, fun i hi =>
        hun i (fun p hp id' hid' => hi p (List.mem_cons_of_mem _ hp) id' hid')⟩
    | compound v =>
      obtain ⟨res, hres, hlen, hun⟩ := ih acc
        (fun p hp id' hid' => hin p (List.mem_cons_of_mem _ hp) id' hid')
      exact ⟨res, hres, hlen, fun i hi =>
        hun i (fun p hp id' hid' => hi p (List.mem_cons_of_mem _ hp) id' hid')⟩

theorem paletteFill_panics :
    ∀ (entries : List (String × NbtTag)) (acc : List BlockState),
      (∃ p ∈ entries, ∃ id : Int, p.2 = NbtTag.int id ∧ acc.length ≤ usizeOfI32 id) →
      paletteFill entries acc = .error (.panicked "index out of bounds") := by
  intro entries
  induction entries with
  | nil =>
    intro acc h
    obtain ⟨p, hp, _⟩ := h
    simp at hp
  | cons e rest ih =>
    intro acc h
    obtain ⟨k, tag⟩ := e
    cases tag with
    | int id =>
      by_cases hlt : usizeOfI32 id < acc.length
      · simp only [paletteFill, if_pos hlt]
        apply ih
        obtain ⟨p, hp, id', hid', hge⟩ := h
        rcases List.mem_cons.mp hp with heq | hmem
        · subst heq
          simp only [NbtTag.int.injEq] at hid'
          subst hid'
          omega
        · exact ⟨p, hmem, id', hid', by rw [List.length_set]; exact hge⟩
      · simp only [paletteFill, if_neg hlt]
    | byte v =>
      simp only [paletteFill]
      apply ih
      obtain ⟨p, hp, id', hid', hge⟩ := h
      rcases List.mem_cons.mp hp with heq | hmem
      · subst heq; simp at hid'
      · exact ⟨p, hmem, id', hid', hge⟩
    | short v =>
      simp only [paletteFill]
      apply ih
      obtain ⟨p, hp, id', hid', hge⟩ := h
      rcases List.mem_cons.mp hp with heq | hmem
      · subst heq; simp at hid'
      · exact ⟨p, hmem, id', hid', hge⟩
    | long v =>
      simp only [paletteFill]
      apply ih
      obtain ⟨p, hp, id', hid', hge⟩ := h
      rcases List.mem_cons.mp hp with heq | hmem
      · subst heq; simp at hid'
      · exact ⟨p, hmem, id', hid', hge⟩
    | double v =>
      simp only [paletteFill]
      apply ih
      obtain ⟨p, hp, id', hid', hge⟩ := h
      rcases List.mem_cons.mp hp with heq | hmem
      · subst heq; simp at hid'
      · exact ⟨p, hmem, id', hid', hge⟩
    | string s =>
      simp only [paletteFill]
      apply ih
      obtain ⟨p, hp, id', hid', hge⟩ := h
      rcases List.mem_cons.mp hp with heq | hmem
      · subst heq; simp at hid'
      · exact ⟨p, hmem, id', hid', hge⟩
    | byteArray v =>
      simp only [paletteFill]
      apply ih
      obtain ⟨p, hp, id', hid', hge⟩ := h
      rcases List.mem_cons.mp hp with heq | hmem
      · subst heq; simp at hid'
      · exact ⟨p, hmem, id', hid', hge⟩
    | intArray v =>
      simp only [paletteFill]
      apply ih
      obtain ⟨p, hp, id', hid', hge⟩ := h
      rcases List.mem_cons.mp hp with heq | hmem
      · subst heq; simp at hid'
      · exact ⟨p, hmem, id', hid', hge⟩
    | list v =>
      simp only [paletteFill]
      apply ih
      obtain ⟨p, hp, id', hid', hge⟩ := h
      rcases List.mem_cons.mp hp with heq | hmem
      · subst heq; simp at hid'
      · exact ⟨p, hmem, id', hid', hge⟩
    | compound v =>
      simp only [paletteFill]
      apply ih
      obtain ⟨p, hp, id', hid', hge⟩ := h
      rcases List.mem_cons.mp hp with heq | hmem
      · subst heq; simp at hid'
      · exact ⟨p, hmem, id', hid', hge⟩

theorem paletteFill_final :
    ∀ (entries : List (String × NbtTag)) (acc : List BlockState),
      (∀ p ∈ entries, ∀ id : Int, p.2 = NbtTag.int id → usizeOfI32 id < acc.length) →
      ∃ res, paletteFill entries acc = .ok res ∧ res.length = acc.length ∧
        (∀ t, assignedVal entries t = none → res.get? t = acc.get? t) ∧
        (∀ t bv, assignedVal entries t = some bv → res.get? t = some bv) := by
  intro entries
  induction entries with
  | nil =>
    intro acc _
    exact ⟨acc, rfl, rfl, fun _ _ => rfl, fun t bv h => by simp [assignedVal] at h⟩
  | cons e rest ih =>
    intro acc hin
    obtain ⟨k, tag⟩ := e
    cases tag
    case int id =>
      have hlt : usizeOfI32 id < acc.length :=
        hin (k, .int id) (List.mem_cons_self _ _) id rfl
      have hin' : ∀ p ∈ rest, ∀ id' : Int, p.2 = NbtTag.int id' →
          usizeOfI32 id' < (acc.set (usizeOfI32 id) (parse_block_state k)).length := by
        intro p hp id' hid'
        rw [List.length_set]
        exact hin p (List.mem_cons_of_mem _ hp) id' hid'
      obtain ⟨res, hres, hlen, hnone, hsome⟩ := ih
        (acc.set (usizeOfI32 id) (parse_block_state k)) hin'
      refine ⟨res, ?_, by rw [hlen, List.length_set], ?_, ?_⟩
      · simp only [paletteFill, if_pos hlt]
        exact hres
      · intro t ht
        simp only [assignedVal] at ht
        rcases hr : assignedVal rest t with _ | b
        · rw [hr] at ht
          have hne : usizeOfI32 id ≠ t := by
            by_contra he
            rw [if_pos he] at ht
            simp at ht
          rw [hnone t hr]
          rw [List.get?_eq_getElem?, List.get?_eq_getElem?, List.getElem?_set_ne hne]
        · rw [hr] at ht
          simp at ht
      · intro t bv hbv
        simp only [assignedVal] at hbv
        rcases hr : assignedVal rest t with _ | b
        · rw [hr] at hbv
          by_cases he : usizeOfI32 id = t
          · rw [if_pos he] at hbv
            injection hbv with hbv
            subst hbv
            rw [hnone t hr, he]
            rw [List.get?_eq_getElem?, List.getElem?_set_self (by omega)]
          · rw [if_neg he] at hbv
            simp at hbv
        · rw [hr] at hbv
          injection hbv with hbv
          subst hbv
          exact hsome t b hr
    all_goals
      obtain ⟨res, hres, hlen, hnone, hsome⟩ := ih acc
        (fun p hp id' hid' => hin p (List.mem_cons_of_mem _ hp) id' hid')
    all_goals
      exact ⟨res, hres, hlen, fun t ht => hnone t ht, fun t bv hbv => hsome t bv hbv⟩

/-! ## Convert palette structure lemmas -/

theorem cInsert_fresh {c : NbtCompound} {k : String} {v : NbtTag}
    (h : c.any (fun e => e.1 == k) = false) : cInsert c k v = c ++ [(k, v)] := by
  unfold cInsert
  rw [h]
  rfl

theorem mem_nonAirKeyed_keys {l : List (Nat × BlockState)} {q : Nat × BlockState}
    (hq : q ∈ l) (hair : (q.2.name == "minecraft:air") = false) :
    formatKey q.2 ∈ (nonAirKeyed l).map Prod.fst := by
  unfold nonAirKeyed
  rw [List.map_map]
  apply List.mem_map_of_mem
  rw [List.mem_filter]
  exact ⟨hq, by simp [hair]⟩

theorem convert_fold_eq :
    ∀ (l : List (Nat × BlockState)) (c : NbtCompound) (m : Nat),
      (∀ p ∈ l, (p.2.name == "minecraft:air") = false →
        c.any (fun e => e.1 == formatKey p.2) = false) →
      ((nonAirKeyed l).map Prod.fst).Nodup →
      l.foldl (fun acc p =>
        if p.2.name == "minecraft:air" then acc
        else (cInsert acc.1 (formatKey p.2) (.int (p.1 : Int)), max acc.2 p.1)) (c, m)
      = (c ++ nonAirKeyed l,
         (l.filter (fun p => !(p.2.name == "minecraft:air"))).foldl
           (fun m p => max m p.1) m) := by
  intro l
  induction l with
  | nil =>
    intro c m _ _
    simp [nonAirKeyed]
  | cons p t ih =>
    intro c m hfresh hnodup
    by_cases hair : (p.2.name == "minecraft:air") = true
    · have hfilter : (p :: t).filter (fun q => !(q.2.name == "minecraft:air"))
          = t.filter (fun q => !(q.2.name == "minecraft:air")) := by
        rw [List.filter_cons]
        simp [hair]
      have hnk : nonAirKeyed (p :: t) = nonAirKeyed t := by
        unfold nonAirKeyed
        rw [List.filter_cons]
        simp [hair]
      rw [List.foldl_cons, if_pos hair,
        ih c m (fun q hq hqa => hfresh q (List.mem_cons_of_mem _ hq) hqa)
          (hnk ▸ hnodup),
        hnk, hfilter]
    · rw [Bool.not_eq_true] at hair
      have hnk : nonAirKeyed (p :: t)
          = (formatKey p.2, NbtTag.int (p.1 : Int)) :: nonAirKeyed t := by
        unfold nonAirKeyed
        rw [List.filter_cons]
        simp [hair]
      rw [hnk, List.map_cons] at hnodup
      rw [List.nodup_cons] at hnodup
      obtain ⟨hhead, htail⟩ := hnodup
      have hcins : cInsert c (formatKey p.2) (NbtTag.int (p.1 : Int))
          = c ++ [(formatKey p.2, NbtTag.int (p.1 : Int))] :=
        cInsert_fresh (hfresh p (List.mem_cons_self _ _) hair)
      have hfresh' : ∀ q ∈ t, (q.2.name == "minecraft:air") = false →
          (c ++ [(formatKey p.2, NbtTag.int (p.1 : Int))]).any
            (fun e => e.1 == formatKey q.2) = false := by
        intro q hq hqa
        rw [List.any_append]
        rw [hfresh q (List.mem_cons_of_mem _ hq) hqa]
        simp only [List.any_cons, List.any_nil, Bool.false_or, Bool.or_false]
        rw [beq_eq_false_iff_ne]
        intro he
        exact hhead (he ▸ mem_nonAirKeyed_keys hq hqa)
      have hfc : (p :: t).filter (fun q => !(q.2.name == "minecraft:air"))
          = p :: t.filter (fun q => !(q.2.name == "minecraft:air")) := by
        rw [List.filter_cons]
        simp [hair]
      rw [List.foldl_cons, if_neg (by simp [hair]), hcins,
        ih (c ++ [(formatKey p.2, NbtTag.int (p.1 : Int))]) (max m p.1) hfresh' htail,
        hnk, hfc, List.foldl_cons]
      simp [List.append_assoc]

theorem snd_mem_of_mem_enum {P : List BlockState} {p : Nat × BlockState}
    (hp : p ∈ P.enum) : p.2 ∈ P := by
  have := List.mem_map_of_mem Prod.snd hp
  rw [List.enum_map_snd] at this
  exact this

theorem nonAirKeyed_keys_nodup (P : List BlockState)
    (hwf : ∀ b ∈ P, stateWfB b = true) (hnodup : P.Nodup) :
    ((nonAirKeyed P.enum).map Prod.fst).Nodup := by
  unfold nonAirKeyed
  rw [List.map_map]
  have hbase : ((P.enum.filter (fun p => !(p.2.name == "minecraft:air"))).map
      Prod.snd).Nodup := by
    apply List.Nodup.sublist (List.Sublist.map Prod.snd (List.filter_sublist P.enum))
    rw [List.enum_map_snd]
    exact hnodup
  have hgoal : ((P.enum.filter (fun p => !(p.2.name == "minecraft:air"))).map
      (Prod.fst ∘ fun p : Nat × BlockState => (formatKey p.2, NbtTag.int (p.1 : Int))))
      = ((P.enum.filter (fun p => !(p.2.name == "minecraft:air"))).map
          Prod.snd).map formatKey := by
    rw [List.map_map]
    rfl
  rw [hgoal]
  apply List.Nodup.map_on ?_ hbase
  intro x hx y hy hxy
  rw [List.mem_map] at hx hy
  obtain ⟨px, hpx, hpx2⟩ := hx
  obtain ⟨py, hpy, hpy2⟩ := hy
  rw [List.mem_filter] at hpx hpy
  have hwx : stateWfB x = true := by
    rw [← hpx2]
    exact hwf px.2 (snd_mem_of_mem_enum hpx.1)
  have hwy : stateWfB y = true := by
    rw [← hpy2]
    exact hwf py.2 (snd_mem_of_mem_enum hpy.1)
  exact formatKey_injective hwx hwy hxy

theorem convert_palette_eq (P : List BlockState)
    (hwf : ∀ b ∈ P, stateWfB b = true) (hnodup : P.Nodup) :
    (convert_palette P).1 = ("minecraft:air", NbtTag.int 0) :: nonAirKeyed P.enum ∧
    (convert_palette P).2 = ((maxNonAir P.enum : Nat) : Int) := by
  have hfresh : ∀ p ∈ P.enum, (p.2.name == "minecraft:air") = false →
      ([("minecraft:air", NbtTag.int 0)] : NbtCompound).any
        (fun e => e.1 == formatKey p.2) = false := by
    intro p hp hair
    simp only [List.any_cons, List.any_nil, Bool.or_false]
    rw [beq_eq_false_iff_ne]
    intro he
    exact formatKey_ne_air (hwf p.2 (snd_mem_of_mem_enum hp))
      (by rw [beq_eq_false_iff_ne] at hair; exact hair) he.symm
  have hfold := convert_fold_eq P.enum (cInsert [] "minecraft:air" (NbtTag.int 0)) 0
    hfresh (nonAirKeyed_keys_nodup P hwf hnodup)
  unfold convert_palette
  dsimp only
  rw [hfold]
  exact ⟨rfl, rfl⟩

/-! ## Assigned value and fold max lemmas -/

theorem usizeOfI32_small {n : Nat} (h : n < 2 ^ 63) : usizeOfI32 (n : Int) = n := by
  unfold usizeOfI32
  omega

theorem assignedVal_nonAir_none :
    ∀ (l : List (Nat × BlockState)) (t : Nat),
      (∀ p ∈ l, p.1 = t → p.2.name = "minecraft:air") →
      (∀ p ∈ l, p.1 < 2 ^ 63) →
      assignedVal (nonAirKeyed l) t = none := by
  intro l
  induction l with
  | nil => intro t _ _; rfl
  | cons p tl ih =>
    intro t hair hbound
    by_cases hp : (p.2.name == "minecraft:air") = true
    · have hnk : nonAirKeyed (p :: tl) = nonAirKeyed tl := by
        unfold nonAirKeyed
        rw [List.filter_cons]
        simp [hp]
      rw [hnk]
      exact ih t (fun q hq hqt => hair q (List.mem_cons_of_mem _ hq) hqt)
        (fun q hq => hbound q (List.mem_cons_of_mem _ hq))
    · rw [Bool.not_eq_true] at hp
      have hnk : nonAirKeyed (p :: tl)
          = (formatKey p.2, NbtTag.int (p.1 : Int)) :: nonAirKeyed tl := by
        unfold nonAirKeyed
        rw [List.filter_cons]
        simp [hp]
      rw [hnk]
      simp only [assignedVal]
      rw [ih t (fun q hq hqt => hair q (List.mem_cons_of_mem _ hq) hqt)
        (fun q hq => hbound q (List.mem_cons_of_mem _ hq))]
      have hne : usizeOfI32 (p.1 : Int) ≠ t := by
        rw [usizeOfI32_small (hbound p (List.mem_cons_self _ _))]
        intro he
        have := hair p (List.mem_cons_self _ _) he
        rw [this] at hp
        simp at hp
      rw [if_neg hne]

theorem assignedVal_nonAir_some :
    ∀ (l : List (Nat × BlockState)) (t : Nat) (b : BlockState),
      ((l.map Prod.fst).Nodup) →
      (∀ p ∈ l, p.1 < 2 ^ 63) →
      (∀ p ∈ l, stateWfB p.2 = true) →
      (t, b) ∈ l → b.name ≠ "minecraft:air" →
      assignedVal (nonAirKeyed l) t = some b := by
  intro l
  induction l with
  | nil => intro t b _ _ _ h _; simp at h
  | cons p tl ih =>
    intro t b hnodup hbound hwf hmem hbair
    rw [List.map_cons, List.nodup_cons] at hnodup
    obtain ⟨hhead, htail⟩ := hnodup
    rw [List.mem_cons] at hmem
    rcases hmem with heq | hmem
    · subst heq
      have hp : (b.name == "minecraft:air") = false := by
        rw [beq_eq_false_iff_ne]
        exact hbair
      have hnk : nonAirKeyed ((t, b) :: tl)
          = (formatKey b, NbtTag.int (t : Int)) :: nonAirKeyed tl := by
        unfold nonAirKeyed
        rw [List.filter_cons]
        simp [hp]
      rw [hnk]
      simp only [assignedVal]
      have hrest : assignedVal (nonAirKeyed tl) t = none := by
        apply assignedVal_nonAir_none
        · intro q hq hqt
          have hmm : q.1 ∈ tl.map Prod.fst := List.mem_map_of_mem Prod.fst hq
          exact absurd (hqt ▸ hmm) hhead
        · intro q hq
          exact hbound q (List.mem_cons_of_mem _ hq)
      rw [hrest]
      rw [if_pos (usizeOfI32_small (hbound (t, b) (List.mem_cons_self _ _)))]
      rw [parse_formatKey b (hwf (t, b) (List.mem_cons_self _ _))]
    · by_cases hp : (p.2.name == "minecraft:air") = true
      · have hnk : nonAirKeyed (p :: tl) = nonAirKeyed tl := by
          unfold nonAirKeyed
          rw [List.filter_cons]
          simp [hp]
        rw [hnk]
        exact ih t b htail (fun q hq => hbound q (List.mem_cons_of_mem _ hq))
          (fun q hq => hwf q (List.mem_cons_of_mem _ hq)) hmem hbair
      · rw [Bool.not_eq_true] at hp
        have hnk : nonAirKeyed (p :: tl)
            = (formatKey p.2, NbtTag.int (p.1 : Int)) :: nonAirKeyed tl := by
          unfold nonAirKeyed
          rw [List.filter_cons]
          simp [hp]
        rw [hnk]
        simp only [assignedVal]
        rw [ih t b htail (fun q hq => hbound q (List.mem_cons_of_mem _ hq))
          (fun q hq => hwf q (List.mem_cons_of_mem _ hq)) hmem hbair]

theorem foldl_max_lt (l : List (Nat × BlockState)) (K : Nat) :
    ∀ m : Nat, m < K → (∀ p ∈ l, p.1 < K) →
      l.foldl (fun m p => max m p.1) m < K := by
  induction l with
  | nil => intro m hm _; exact hm
  | cons p t ih =>
    intro m hm hb
    rw [List.foldl_cons]
    exact ih (max m p.1)
      (by
        have := hb p (List.mem_cons_self _ _)
        omega)
      (fun q hq => hb q (List.mem_cons_of_mem _ hq))

theorem le_foldl_max_init (l : List (Nat × BlockState)) :
    ∀ m : Nat, m ≤ l.foldl (fun m p => max m p.1) m := by
  induction l with
  | nil => intro m; exact le_rfl
  | cons p t ih =>
    intro m
    rw [List.foldl_cons]
    calc m ≤ max m p.1 := le_max_left _ _
      _ ≤ _ := ih (max m p.1)

theorem le_foldl_max (l : List (Nat × BlockState)) :
    ∀ (m : Nat) (q : Nat × BlockState), q ∈ l →
      q.1 ≤ l.foldl (fun m p => max m p.1) m := by
  induction l with
  | nil => intro m q h; simp at h
  | cons p t ih =>
    intro m q hq
    rw [List.foldl_cons]
    rw [List.mem_cons] at hq
    rcases hq with heq | hq
    · subst heq
      calc q.1 ≤ max m q.1 := le_max_right _ _
        _ ≤ _ := le_foldl_max_init t (max m q.1)
    · exact ih (max m p.1) q hq

theorem air_of_wf {b : BlockState} (hwf : stateWfB b = true)
    (hn : b.name = "minecraft:air") : b = airState := by
  unfold stateWfB at hwf
  simp only [Bool.and_eq_true] at hwf
  obtain ⟨⟨_, hair⟩, _⟩ := hwf
  rw [Bool.or_eq_true] at hair
  rcases hair with h | h
  · rw [Bool.not_eq_eq_eq_not, Bool.not_true, beq_eq_false_iff_ne] at h
    exact absurd hn h
  · rw [List.isEmpty_iff] at h
    cases b with
    | mk n p =>
      simp only at hn h
      rw [hn, h]
      rfl

theorem enum_fst_lt {P : List BlockState} {p : Nat × BlockState}
    (hp : p ∈ P.enum) : p.1 < P.length := by
  rw [List.mem_enum_iff_get?] at hp
  rw [List.get?_eq_some] at hp
  exact hp.1

theorem palette_roundtrip (P : List BlockState)
    (hwf : ∀ b ∈ P, stateWfB b = true) (hnodup : P.Nodup)
    (hlen : P.length < 2 ^ 31) :
    ∃ res, paletteFill (convert_palette P).1
        (List.replicate (usizeOfI32 (convert_palette P).2 + 1) airState) = .ok res ∧
      ∀ t, res.getD t airState = P.getD t airState := by
  obtain ⟨hcp1, hcp2⟩ := convert_palette_eq P hwf hnodup
  have hbound : ∀ p ∈ P.enum, p.1 < 2 ^ 63 := by
    intro p hp
    have := enum_fst_lt hp
    omega
  have hM63 : maxNonAir P.enum < 2 ^ 63 := by
    unfold maxNonAir
    apply foldl_max_lt _ _ _ (by norm_num)
    intro p hp
    exact hbound p (List.mem_filter.mp hp).1
  have husize : usizeOfI32 (convert_palette P).2 = maxNonAir P.enum := by
    rw [hcp2]
    exact usizeOfI32_small hM63
  rw [husize, hcp1]
  have htargets : ∀ p ∈ (("minecraft:air", NbtTag.int 0) :: nonAirKeyed P.enum),
      ∀ id : Int, p.2 = NbtTag.int id →
        usizeOfI32 id < (List.replicate (maxNonAir P.enum + 1) airState).length := by
    intro p hp id hid
    rw [List.length_replicate]
    rw [List.mem_cons] at hp
    rcases hp with heq | hp
    · subst heq
      simp only at hid
      injection hid with hid
      subst hid
      have : usizeOfI32 0 = 0 := by unfold usizeOfI32; norm_num
      omega
    · unfold nonAirKeyed at hp
      rw [List.mem_map] at hp
      obtain ⟨q, hqf, hqe⟩ := hp
      rw [← hqe] at hid
      simp only at hid
      injection hid with hid
      subst hid
      rw [usizeOfI32_small (hbound q (List.mem_filter.mp hqf).1)]
      have hle : q.1 ≤ maxNonAir P.enum := le_foldl_max _ 0 q hqf
      omega
  obtain ⟨res, hres, hreslen, hnone, hsome⟩ :=
    paletteFill_final _ _ htargets
  refine ⟨res, hres, ?_⟩
  intro t
  rw [List.getD_eq_get?, List.getD_eq_get?]
  have henum_nodup : (P.enum.map Prod.fst).Nodup := by
    rw [List.enum_map_fst]
    exact List.nodup_range _
  have hwfenum : ∀ p ∈ P.enum, stateWfB p.2 = true :=
    fun p hp => hwf p.2 (snd_mem_of_mem_enum hp)
  have husize0 : usizeOfI32 (0 : Int) = 0 := by unfold usizeOfI32; norm_num
  by_cases ht : t < P.length
  · obtain ⟨b, hb⟩ : ∃ b, P.get? t = some b := by
      rw [List.get?_eq_getElem?]
      exact List.getElem?_eq_some_iff.mpr ⟨ht, rfl⟩ |> fun h => ⟨_, h⟩
    have hmemenum : (t, b) ∈ P.enum := List.mem_enum_iff_get?.mpr hb
    have hbwf : stateWfB b = true := hwf b (by
      have := List.get?_mem hb
      exact this)
    by_cases hbn : b.name = "minecraft:air"
    · have hbair : b = airState := air_of_wf hbwf hbn
      have hLnone : assignedVal (nonAirKeyed P.enum) t = none := by
        apply assignedVal_nonAir_none _ _ ?_ hbound
        intro q hq hqt
        rw [List.mem_enum_iff_get?] at hq
        rw [hqt, hb] at hq
        injection hq with hq
        exact hq ▸ hbn
      have hA : assignedVal (("minecraft:air", NbtTag.int 0) :: nonAirKeyed P.enum) t
          = if t = 0 then some airState else none := by
        simp only [assignedVal, hLnone, husize0, parse_air]
        by_cases ht0 : t = 0
        · rw [if_pos ht0.symm, if_pos ht0]
        · rw [if_neg (fun h => ht0 h.symm), if_neg ht0]
      by_cases ht0 : t = 0
      · rw [if_pos ht0] at hA
        rw [hsome t airState hA, hb, hbair]
      · rw [if_neg ht0] at hA
        rw [hnone t hA, hb, hbair]
        rw [List.get?_eq_getElem?, List.getElem?_replicate]
        split <;> rfl
    · have hLsome : assignedVal (nonAirKeyed P.enum) t = some b :=
        assignedVal_nonAir_some P.enum t b henum_nodup hbound hwfenum hmemenum hbn
      have hA : assignedVal (("minecraft:air", NbtTag.int 0) :: nonAirKeyed P.enum) t
          = some b := by
        simp only [assignedVal, hLsome]
      rw [hsome t b hA, hb]
  · have hPnone : P.get? t = none := by
      rw [List.get?_eq_getElem?]
      exact List.getElem?_eq_none (by omega)
    have hLnone : assignedVal (nonAirKeyed P.enum) t = none := by
      apply assignedVal_nonAir_none _ _ ?_ hbound
      intro q hq hqt
      exfalso
      have := enum_fst_lt hq
      omega
    have hA : assignedVal (("minecraft:air", NbtTag.int 0) :: nonAirKeyed P.enum) t
        = if t = 0 then some airState else none := by
      simp only [assignedVal, hLnone, husize0, parse_air]
      by_cases ht0 : t = 0
      · rw [if_pos ht0.symm, if_pos ht0]
      · rw [if_neg (fun h => ht0 h.symm), if_neg ht0]
    by_cases ht0 : t = 0
    · rw [if_pos ht0] at hA
      rw [hsome t airState hA, hPnone]
      rfl
    · rw [if_neg ht0] at hA
      rw [hnone t hA, hPnone]
      rw [List.get?_eq_getElem?, List.getElem?_replicate]
      split <;> rfl

/-! ## Region and bounding box lemmas -/

theorem region_bbox (r : Region) (h1 : 1 ≤ r.size.x) (h2 : 1 ≤ r.size.y)
    (h3 : 1 ≤ r.size.z) :
    r.get_bounding_box = ⟨r.position,
      ⟨r.position.x + r.size.x - 1, r.position.y + r.size.y - 1,
       r.position.z + r.size.z - 1⟩⟩ := by
  unfold Region.get_bounding_box
  have hx : min r.position.x (r.position.x + r.size.x - 1) = r.position.x := by omega
  have hy : min r.position.y (r.position.y + r.size.y - 1) = r.position.y := by omega
  have hz : min r.position.z (r.position.z + r.size.z - 1) = r.position.z := by omega
  have hx2 : max r.position.x (r.position.x + r.size.x - 1)
      = r.position.x + r.size.x - 1 := by omega
  have hy2 : max r.position.y (r.position.y + r.size.y - 1)
      = r.position.y + r.size.y - 1 := by omega
  have hz2 : max r.position.z (r.position.z + r.size.z - 1)
      = r.position.z + r.size.z - 1 := by omega
  simp only [hx, hy, hz, hx2, hy2, hz2]

theorem dims_of_box (bb : BoundingBox) (hx : bb.bmin.x ≤ bb.bmax.x)
    (hy : bb.bmin.y ≤ bb.bmax.y) (hz : bb.bmin.z ≤ bb.bmax.z) :
    bb.get_dimensions = ⟨bb.bmax.x - bb.bmin.x + 1, bb.bmax.y - bb.bmin.y + 1,
      bb.bmax.z - bb.bmin.z + 1⟩ := by
  unfold BoundingBox.get_dimensions
  have hdx : (((bb.bmax.x - bb.bmin.x).natAbs : Int)) = bb.bmax.x - bb.bmin.x :=
    Int.natAbs_of_nonneg (by omega)
  have hdy : (((bb.bmax.y - bb.bmin.y).natAbs : Int)) = bb.bmax.y - bb.bmin.y :=
    Int.natAbs_of_nonneg (by omega)
  have hdz : (((bb.bmax.z - bb.bmin.z).natAbs : Int)) = bb.bmax.z - bb.bmin.z :=
    Int.natAbs_of_nonneg (by omega)
  simp only [I3.mk.injEq]
  refine ⟨?_, ?_, ?_⟩
  · rw [hdx]
  · rw [hdy]
  · rw [hdz]

theorem stateWfB_air : stateWfB airState = true := by decide

theorem getD_mem_or_zero (l : List Nat) (n : Nat) : l.getD n 0 ∈ l ∨ l.getD n 0 = 0 := by
  rw [List.getD_eq_get?]
  cases h : l.get? n with
  | none => right; rfl
  | some v =>
    left
    simpa using List.get?_mem h

theorem inI32_spec {v : Int} : inI32 v = true ↔ (-(2 ^ 31) ≤ v ∧ v < 2 ^ 31) := by
  unfold inI32
  rw [decide_eq_true_iff]

theorem expand_to_fit_fields (r : Region) (c : I3)
    (h1 : 1 ≤ r.size.x) (h2 : 1 ≤ r.size.y) (h3 : 1 ≤ r.size.z) :
    let pos' : I3 := ⟨min r.position.x c.x, min r.position.y c.y, min r.position.z c.z⟩
    let mx : I3 := ⟨max (r.position.x + r.size.x - 1) c.x,
      max (r.position.y + r.size.y - 1) c.y, max (r.position.z + r.size.z - 1) c.z⟩
    (r.expand_to_fit c).position = pos' ∧
    (r.expand_to_fit c).size
      = ⟨mx.x - pos'.x + 1, mx.y - pos'.y + 1, mx.z - pos'.z + 1⟩ ∧
    (r.expand_to_fit c).blocks.length
      = (mx.x - pos'.x + 1).toNat * (mx.y - pos'.y + 1).toNat
        * (mx.z - pos'.z + 1).toNat ∧
    (∀ id ∈ (r.expand_to_fit c).blocks, id ∈ r.blocks ∨ id = 0) ∧
    (r.expand_to_fit c).name = r.name ∧
    (r.expand_to_fit c).palette = r.palette ∧
    (r.expand_to_fit c).blockEntities = r.blockEntities ∧
    (r.expand_to_fit c).entities = r.entities := by
  intro pos' mx
  have hbb := region_bbox r h1 h2 h3
  have hunion : r.get_bounding_box.union { bmin := c, bmax := c }
      = { bmin := pos', bmax := mx } := by
    rw [hbb]
    unfold BoundingBox.union
    rfl
  have hdims : (BoundingBox.mk pos' mx).get_dimensions
      = ⟨mx.x - pos'.x + 1, mx.y - pos'.y + 1, mx.z - pos'.z + 1⟩ := by
    apply dims_of_box <;> (show _ ≤ _) <;> simp only [pos', mx] <;> omega
  unfold Region.expand_to_fit
  dsimp only
  rw [hunion]
  simp only [hdims]
  refine ⟨trivial, trivial, ?_, ?_, trivial, trivial, trivial, trivial⟩
  · rw [List.length_map, List.length_range]
  · intro v hv
    rw [List.mem_map] at hv
    obtain ⟨i, _, hi⟩ := hv
    rw [← hi]
    split
    · exact getD_mem_or_zero r.blocks _
    · right
      rfl

/-! ## Global palette lemmas -/

theorem goi_states (p : GlobalPalette) (b : BlockState) :
    (p.get_or_insert b).2.states = p.states ∨
    ((p.get_or_insert b).2.states = p.states ++ [b] ∧ b ∉ p.states) := by
  unfold GlobalPalette.get_or_insert
  by_cases h : memBS p.states b
  · rw [if_pos h]
    exact Or.inl rfl
  · rw [if_neg h]
    exact Or.inr ⟨rfl, fun hm => h ((memBS_iff _ _).mpr hm)⟩

theorem goi_len (p : GlobalPalette) (b : BlockState) :
    (p.get_or_insert b).2.states.length ≤ p.states.length + 1 := by
  rcases goi_states p b with h | ⟨h, _⟩
  · rw [h]
    omega
  · rw [h, List.length_append, List.length_singleton]

theorem goi_inv (p : GlobalPalette) (b : BlockState)
    (h0 : p.states.get? 0 = some airState) (hnd : p.states.Nodup)
    (hwf : ∀ x ∈ p.states, stateWfB x = true) (hb : stateWfB b = true) :
    (p.get_or_insert b).2.states.get? 0 = some airState ∧
    (p.get_or_insert b).2.states.Nodup ∧
    (∀ x ∈ (p.get_or_insert b).2.states, stateWfB x = true) := by
  have hlen : 0 < p.states.length := by
    by_contra hc
    rw [List.get?_eq_getElem?, List.getElem?_eq_none (by omega)] at h0
    exact Option.noConfusion h0
  rcases goi_states p b with h | ⟨h, hnm⟩
  · rw [h]
    exact ⟨h0, hnd, hwf⟩
  · rw [h]
    refine ⟨?_, ?_, ?_⟩
    · rw [List.get?_append hlen]
      exact h0
    · rw [List.nodup_append]
      refine ⟨hnd, List.nodup_singleton b, ?_⟩
      intro x hx hb2
      rw [List.mem_singleton] at hb2
      subst hb2
      exact hnm hx
    · intro x hx
      rw [List.mem_append] at hx
      rcases hx with hx | hx
      · exact hwf x hx
      · rw [List.mem_singleton] at hx
        exact hx ▸ hb

/-! ## Region mutation field lemmas -/

theorem set_block_index_fields (r : Region) (c : I3) (id : Nat) :
    (r.set_block_index c id).2.name = r.name ∧
    (r.set_block_index c id).2.position = r.position ∧
    (r.set_block_index c id).2.size = r.size ∧
    (r.set_block_index c id).2.palette = r.palette ∧
    (r.set_block_index c id).2.blockEntities = r.blockEntities ∧
    (r.set_block_index c id).2.entities = r.entities := by
  unfold Region.set_block_index
  split <;> exact ⟨rfl, rfl, rfl, rfl, rfl, rfl⟩

theorem add_block_entity_fields (r : Region) (be : BlockEntity) :
    (r.add_block_entity be).name = r.name ∧
    (r.add_block_entity be).position = r.position ∧
    (r.add_block_entity be).size = r.size ∧
    (r.add_block_entity be).blocks = r.blocks ∧
    (r.add_block_entity be).palette = r.palette ∧
    (r.add_block_entity be).entities = r.entities := by
  unfold Region.add_block_entity
  split <;> exact ⟨rfl, rfl, rfl, rfl, rfl, rfl⟩

theorem add_block_entity_keys (r : Region) (be : BlockEntity)
    (hkey : ∀ pb ∈ r.blockEntities, pb.1 = pb.2.position)
    (hnd : (r.blockEntities.map Prod.fst).Nodup) :
    (∀ pb ∈ (r.add_block_entity be).blockEntities, pb.1 = pb.2.position) ∧
    ((r.add_block_entity be).blockEntities.map Prod.fst).Nodup := by
  unfold Region.add_block_entity
  by_cases h : r.blockEntities.any (fun e => decide (e.1 = be.position))
  · rw [if_pos h]
    constructor
    · intro pb hpb
      simp only [List.mem_map] at hpb
      obtain ⟨q, hq, hqe⟩ := hpb
      by_cases hqp : q.1 = be.position
      · rw [if_pos (by exact hqp)] at hqe
        rw [← hqe]
      · rw [if_neg (by exact hqp)] at hqe
        rw [← hqe]
        exact hkey q hq
    · have hmm : (r.blockEntities.map
          (fun e => if e.1 = be.position then (be.position, be) else e)).map Prod.fst
          = r.blockEntities.map Prod.fst := by
        rw [List.map_map]
        apply List.map_congr_left
        intro a _
        simp only [Function.comp_apply]
        by_cases ha : a.1 = be.position
        · rw [if_pos ha, ha]
        · rw [if_neg ha]
      rw [hmm]
      exact hnd
  · rw [if_neg h]
    constructor
    · intro pb hpb
      simp only [List.mem_append, List.mem_singleton] at hpb
      rcases hpb with hpb | hpb
      · exact hkey pb hpb
      · rw [hpb]
    · rw [List.map_append, List.nodup_append]
      refine ⟨hnd, by simp, ?_⟩
      intro a ha hb2
      simp only [List.map_cons, List.map_nil, List.mem_singleton] at hb2
      rw [List.any_eq_true] at h
      push_neg at h
      rw [List.mem_map] at ha
      obtain ⟨q, hq, hqe⟩ := ha
      apply h q hq
      rw [decide_eq_true_eq, hqe]
      exact hb2

theorem add_entity_fields (r : Region) (e : Entity) :
    (r.add_entity e).name = r.name ∧
    (r.add_entity e).position = r.position ∧
    (r.add_entity e).size = r.size ∧
    (r.add_entity e).blocks = r.blocks ∧
    (r.add_entity e).palette = r.palette ∧
    (r.add_entity e).blockEntities = r.blockEntities ∧
    (r.add_entity e).entities = r.entities ++ [e] :=
  ⟨rfl, rfl, rfl, rfl, rfl, rfl, rfl⟩

/-! ## Schematic mutation destructuring lemmas -/

theorem set_block_in_region_eq (s : UniversalSchematic) (k : String)
    (x y z : Int) (b : BlockState) :
    (s.set_block_in_region k x y z b).2 =
      { s with
        regions := UniversalSchematic.updateRegion
          (UniversalSchematic.entryOrInsert s.regions k (Region.new k ⟨x, y, z⟩ ⟨1, 1, 1⟩)).1 k
          (((UniversalSchematic.entryOrInsert s.regions k
              (Region.new k ⟨x, y, z⟩ ⟨1, 1, 1⟩)).2.expand_to_fit
            ⟨x, y, z⟩).set_block_index ⟨x, y, z⟩ (s.palette.get_or_insert b).1).2,
        palette := (s.palette.get_or_insert b).2 } := rfl

theorem add_block_entity_in_region_eq (s : UniversalSchematic) (k : String)
    (be : BlockEntity) :
    (s.add_block_entity_in_region k be).2 =
      { s with
        regions := UniversalSchematic.updateRegion
          (UniversalSchematic.entryOrInsert s.regions k (Region.new k be.position ⟨1, 1, 1⟩)).1 k
          ((UniversalSchematic.entryOrInsert s.regions k
            (Region.new k be.position ⟨1, 1, 1⟩)).2.add_block_entity be) } := rfl

theorem add_entity_in_region_eq (s : UniversalSchematic) (k : String)
    (e : Entity) :
    (s.add_entity_in_region k e).2 =
      { s with
        regions := UniversalSchematic.updateRegion
          (UniversalSchematic.entryOrInsert s.regions k
            (Region.new k ⟨round e.px, round e.py, round e.pz⟩ ⟨1, 1, 1⟩)).1 k
          ((UniversalSchematic.entryOrInsert s.regions k
            (Region.new k ⟨round e.px, round e.py, round e.pz⟩
              ⟨1, 1, 1⟩)).2.add_entity e) } := rfl

theorem entryOrInsert_nil (k : String) (d : Region) :
    UniversalSchematic.entryOrInsert [] k d = ([(k, d)], d) := rfl

theorem lookupRegion_single (k : String) (r : Region) :
    UniversalSchematic.lookupRegion [(k, r)] k = some r := by
  simp [UniversalSchematic.lookupRegion]

theorem entryOrInsert_single (k : String) (r d : Region) :
    UniversalSchematic.entryOrInsert [(k, r)] k d = ([(k, r)], r) := by
  unfold UniversalSchematic.entryOrInsert
  rw [lookupRegion_single]

theorem updateRegion_single (k : String) (r0 r : Region) :
    UniversalSchematic.updateRegion [(k, r0)] k r = [(k, r)] := by
  simp [UniversalSchematic.updateRegion]

/-! ## Region invariant preservation -/

theorem regionInv_of_fields {r r' : Region} (hinv : RegionInv r)
    (hn : r'.name = r.name) (hp : r'.position = r.position)
    (hs : r'.size = r.size) (hb : r'.blockEntities = r.blockEntities) :
    RegionInv r' := by
  obtain ⟨hname, h1, h2, h3, hkey, hnd, hpx, hpy, hpz, hex, hey, hez⟩ := hinv
  exact ⟨hn ▸ hname, hs ▸ h1, hs ▸ h2, hs ▸ h3, hb ▸ hkey, hb ▸ hnd,
    hp ▸ hpx, hp ▸ hpy, hp ▸ hpz,
    by rw [hp, hs]; exact hex, by rw [hp, hs]; exact hey,
    by rw [hp, hs]; exact hez⟩

theorem regionInv_new (c : I3)
    (hx : inI32 c.x = true) (hy : inI32 c.y = true) (hz : inI32 c.z = true) :
    RegionInv (Region.new "Main" c ⟨1, 1, 1⟩) := by
  rw [inI32_spec] at hx hy hz
  refine ⟨rfl, ?_, ?_, ?_, ?_, ?_, ?_, ?_, ?_, ?_, ?_, ?_⟩
  · show (1 : Int) ≤ 1
    decide
  · show (1 : Int) ≤ 1
    decide
  · show (1 : Int) ≤ 1
    decide
  · show ∀ pb ∈ ([] : List (I3 × BlockEntity)), pb.1 = pb.2.position
    simp
  · show (([] : List (I3 × BlockEntity)).map Prod.fst).Nodup
    simp
  · show inI32 c.x = true
    rw [inI32_spec]
    omega
  · show inI32 c.y = true
    rw [inI32_spec]
    omega
  · show inI32 c.z = true
    rw [inI32_spec]
    omega
  · show inI32 (c.x + 1 - 1) = true
    rw [inI32_spec]
    omega
  · show inI32 (c.y + 1 - 1) = true
    rw [inI32_spec]
    omega
  · show inI32 (c.z + 1 - 1) = true
    rw [inI32_spec]
    omega

theorem regionInv_expand (r : Region) (c : I3) (hinv : RegionInv r)
    (hcx : inI32 c.x = true) (hcy : inI32 c.y = true) (hcz : inI32 c.z = true) :
    RegionInv (r.expand_to_fit c) := by
  obtain ⟨hname, h1, h2, h3, hkey, hnd, hpx, hpy, hpz, hex, hey, hez⟩ := hinv
  obtain ⟨hpos, hsize, _, _, hnm, _, hbe, _⟩ := expand_to_fit_fields r c h1 h2 h3
  rw [inI32_spec] at hpx hpy hpz hex hey hez hcx hcy hcz
  refine ⟨hnm ▸ hname, ?_, ?_, ?_, hbe ▸ hkey, hbe ▸ hnd,
    ?_, ?_, ?_, ?_, ?_, ?_⟩
  · rw [hsize]
    show 1 ≤ max (r.position.x + r.size.x - 1) c.x - min r.position.x c.x + 1
    omega
  · rw [hsize]
    show 1 ≤ max (r.position.y + r.size.y - 1) c.y - min r.position.y c.y + 1
    omega
  · rw [hsize]
    show 1 ≤ max (r.position.z + r.size.z - 1) c.z - min r.position.z c.z + 1
    omega
  · rw [inI32_spec, hpos]
    show -(2 ^ 31) ≤ min r.position.x c.x ∧ min r.position.x c.x < 2 ^ 31
    omega
  · rw [inI32_spec, hpos]
    show -(2 ^ 31) ≤ min r.position.y c.y ∧ min r.position.y c.y < 2 ^ 31
    omega
  · rw [inI32_spec, hpos]
    show -(2 ^ 31) ≤ min r.position.z c.z ∧ min r.position.z c.z < 2 ^ 31
    omega
  · rw [inI32_spec, hpos, hsize]
    show -(2 ^ 31) ≤ min r.position.x c.x
        + (max (r.position.x + r.size.x - 1) c.x - min r.position.x c.x + 1) - 1 ∧
      min r.position.x c.x
        + (max (r.position.x + r.size.x - 1) c.x - min r.position.x c.x + 1) - 1
        < 2 ^ 31
    omega
  · rw [inI32_spec, hpos, hsize]
    show -(2 ^ 31) ≤ min r.position.y c.y
        + (max (r.position.y + r.size.y - 1) c.y - min r.position.y c.y + 1) - 1 ∧
      min r.position.y c.y
        + (max (r.position.y + r.size.y - 1) c.y - min r.position.y c.y + 1) - 1
        < 2 ^ 31
    omega
  · rw [inI32_spec, hpos, hsize]
    show -(2 ^ 31) ≤ min r.position.z c.z
        + (max (r.position.z + r.size.z - 1) c.z - min r.position.z c.z + 1) - 1 ∧
      min r.position.z c.z
        + (max (r.position.z + r.size.z - 1) c.z - min r.position.z c.z + 1) - 1
        < 2 ^ 31
    omega

theorem regionInv_set_block_index (r : Region) (c : I3) (id : Nat)
    (hinv : RegionInv r) : RegionInv (r.set_block_index c id).2 := by
  obtain ⟨hn, hp, hs, _, hb, _⟩ := set_block_index_fields r c id
  exact regionInv_of_fields hinv hn hp hs hb

theorem regionInv_add_entity (r : Region) (e : Entity)
    (hinv : RegionInv r) : RegionInv (r.add_entity e) := by
  obtain ⟨hn, hp, hs, _, _, hb, _⟩ := add_entity_fields r e
  exact regionInv_of_fields hinv hn hp hs hb

theorem regionInv_add_block_entity (r : Region) (be : BlockEntity)
    (hinv : RegionInv r) : RegionInv (r.add_block_entity be) := by
  obtain ⟨hname, h1, h2, h3, hkey, hnd, hpx, hpy, hpz, hex, hey, hez⟩ := hinv
  obtain ⟨hkey2, hnd2⟩ := add_block_entity_keys r be hkey hnd
  obtain ⟨hn, hp, hs, _, _, _⟩ := add_block_entity_fields r be
  exact ⟨hn ▸ hname, hs ▸ h1, hs ▸ h2, hs ▸ h3, hkey2, hnd2,
    hp ▸ hpx, hp ▸ hpy, hp ▸ hpz,
    by rw [hp, hs]; exact hex, by rw [hp, hs]; exact hey,
    by rw [hp, hs]; exact hez⟩

/-! ## Build invariant preservation -/

theorem applyOp_inv (s : UniversalSchematic) (op : BuildOp)
    (hinv : BuildInv s) (hop : opWfB op = true) :
    BuildInvNE (applyOp s op) := by
  obtain ⟨hdef, h0, hnd, hwf, hreg⟩ := hinv
  cases op with
  | setBlock x y z b =>
    simp only [opWfB, Bool.and_eq_true] at hop
    obtain ⟨⟨⟨hbwf, hx⟩, hy⟩, hz⟩ := hop
    show BuildInvNE (s.set_block x y z b).2
    unfold UniversalSchematic.set_block
    rw [hdef, set_block_in_region_eq]
    obtain ⟨g0, gnd, gwf⟩ := goi_inv s.palette b h0 hnd hwf hbwf
    rcases hreg with hnil | ⟨r, hr, hrinv⟩
    · rw [hnil, entryOrInsert_nil]
      dsimp only
      rw [updateRegion_single]
      refine ⟨hdef, g0, gnd, gwf, _, rfl, ?_⟩
      apply regionInv_set_block_index
      exact regionInv_expand _ _ (regionInv_new ⟨x, y, z⟩ hx hy hz) hx hy hz
    · rw [hr, entryOrInsert_single]
      dsimp only
      rw [updateRegion_single]
      refine ⟨hdef, g0, gnd, gwf, _, rfl, ?_⟩
      apply regionInv_set_block_index
      exact regionInv_expand _ _ hrinv hx hy hz
  | addEntity e =>
    simp only [opWfB, Bool.and_eq_true] at hop
    obtain ⟨⟨hx, hy⟩, hz⟩ := hop
    show BuildInvNE (s.add_entity e).2
    unfold UniversalSchematic.add_entity
    rw [hdef, add_entity_in_region_eq]
    rcases hreg with hnil | ⟨r, hr, hrinv⟩
    · rw [hnil, entryOrInsert_nil]
      dsimp only
      rw [updateRegion_single]
      refine ⟨hdef, h0, hnd, hwf, _, rfl, ?_⟩
      exact regionInv_add_entity _ _
        (regionInv_new ⟨round e.px, round e.py, round e.pz⟩ hx hy hz)
    · rw [hr, entryOrInsert_single]
      dsimp only
      rw [updateRegion_single]
      refine ⟨hdef, h0, hnd, hwf, _, rfl, ?_⟩
      exact regionInv_add_entity _ _ hrinv
  | addBlockEntity be =>
    simp only [opWfB, Bool.and_eq_true] at hop
    obtain ⟨⟨hx, hy⟩, hz⟩ := hop
    show BuildInvNE (s.add_block_entity be).2
    unfold UniversalSchematic.add_block_entity
    rw [hdef, add_block_entity_in_region_eq]
    rcases hreg with hnil | ⟨r, hr, hrinv⟩
    · rw [hnil, entryOrInsert_nil]
      dsimp only
      rw [updateRegion_single]
      refine ⟨hdef, h0, hnd, hwf, _, rfl, ?_⟩
      exact regionInv_add_block_entity _ _
        (regionInv_new be.position hx hy hz)
    · rw [hr, entryOrInsert_single]
      dsimp only
      rw [updateRegion_single]
      refine ⟨hdef, h0, hnd, hwf, _, rfl, ?_⟩
      exact regionInv_add_block_entity _ _ hrinv

theorem buildInvNE_buildInv {s : UniversalSchematic} (h : BuildInvNE s) :
    BuildInv s := by
  obtain ⟨hdef, h0, hnd, hwf, r, hr, hrinv⟩ := h
  exact ⟨hdef, h0, hnd, hwf, Or.inr ⟨r, hr, hrinv⟩⟩

theorem foldl_applyOp_inv (ops : List BuildOp) :
    ∀ s, BuildInvNE s → (∀ op ∈ ops, opWfB op = true) →
      BuildInvNE (ops.foldl applyOp s) := by
  induction ops with
  | nil => intro s h _; exact h
  | cons op rest ih =>
    intro s h hwf
    rw [List.foldl_cons]
    exact ih _ (applyOp_inv s op (buildInvNE_buildInv h)
      (hwf op (List.mem_cons_self op rest)))
      (fun o ho => hwf o (List.mem_cons_of_mem _ ho))

theorem buildInv_new (name : String) : BuildInv (UniversalSchematic.new name) :=
  ⟨rfl, rfl, List.nodup_singleton _, by
    intro b hb
    have hb2 : b ∈ [airState] := hb
    rw [List.mem_singleton] at hb2
    exact hb2 ▸ stateWfB_air, Or.inl rfl⟩

theorem build_inv (name : String) (ops : List BuildOp) (hne : ops ≠ [])
    (hwf : ∀ op ∈ ops, opWfB op = true) :
    BuildInvNE (build name ops) := by
  cases ops with
  | nil => exact absurd rfl hne
  | cons op rest =>
    unfold build
    rw [List.foldl_cons]
    exact foldl_applyOp_inv rest _
      (applyOp_inv _ op (buildInv_new name) (hwf op (List.mem_cons_self op rest)))
      (fun o ho => hwf o (List.mem_cons_of_mem _ ho))

theorem applyOp_meta (s : UniversalSchematic) (op : BuildOp) :
    (applyOp s op).metadata = s.metadata := by
  cases op <;> rfl

theorem build_metadata (name : String) (ops : List BuildOp) :
    (build name ops).metadata = ⟨some name, none⟩ := by
  unfold build
  have : ∀ (l : List BuildOp) (s : UniversalSchematic),
      (l.foldl applyOp s).metadata = s.metadata := by
    intro l
    induction l with
    | nil => intro s; rfl
    | cons op rest ih =>
      intro s
      rw [List.foldl_cons, ih, applyOp_meta]
  rw [this]
  rfl

theorem applyOp_palette_len (s : UniversalSchematic) (op : BuildOp) :
    (applyOp s op).palette.states.length ≤ s.palette.states.length + 1 := by
  cases op with
  | setBlock x y z b =>
    show ((s.set_block x y z b).2.palette.states.length ≤ _)
    unfold UniversalSchematic.set_block
    rw [set_block_in_region_eq]
    exact goi_len s.palette b
  | addEntity e =>
    show s.palette.states.length ≤ s.palette.states.length + 1
    omega
  | addBlockEntity be =>
    show s.palette.states.length ≤ s.palette.states.length + 1
    omega

theorem build_palette_len (name : String) (ops : List BuildOp) :
    (build name ops).palette.states.length ≤ 1 + ops.length := by
  unfold build
  have : ∀ (l : List BuildOp) (s : UniversalSchematic),
      (l.foldl applyOp s).palette.states.length
        ≤ s.palette.states.length + l.length := by
    intro l
    induction l with
    | nil => intro s; simp
    | cons op rest ih =>
      intro s
      rw [List.foldl_cons]
      have h1 := ih (applyOp s op)
      have h2 := applyOp_palette_len s op
      simp only [List.length_cons]
      omega
  have h := this ops (UniversalSchematic.new name)
  simpa [UniversalSchematic.new, GlobalPalette.new] using h

/-! ## Single region bounding box -/

theorem single_bbox (s : UniversalSchematic) (r : Region)
    (hreg : s.regions = [("Main", r)]) (hinv : RegionInv r) :
    s.get_bounding_box = ⟨⟨r.position.x, r.position.y, r.position.z⟩,
      ⟨r.position.x + r.size.x - 1, r.position.y + r.size.y - 1,
       r.position.z + r.size.z - 1⟩⟩ := by
  obtain ⟨_, h1, h2, h3, _, _, hpx, hpy, hpz, hex, hey, hez⟩ := hinv
  rw [inI32_spec] at hpx hpy hpz hex hey hez
  unfold UniversalSchematic.get_bounding_box
  rw [hreg]
  simp only [List.foldl_cons, List.foldl_nil]
  rw [region_bbox r h1 h2 h3]
  unfold BoundingBox.union
  dsimp only
  simp only [BoundingBox.mk.injEq, I3.mk.injEq]
  omega

theorem single_dims (s : UniversalSchematic) (r : Region)
    (hreg : s.regions = [("Main", r)]) (hinv : RegionInv r) :
    s.get_bounding_box.get_dimensions.x = r.size.x ∧
    s.get_bounding_box.get_dimensions.y = r.size.y ∧
    s.get_bounding_box.get_dimensions.z = r.size.z ∧
    s.get_bounding_box.bmin = r.position := by
  have hbb := single_bbox s r hreg hinv
  obtain ⟨_, h1, h2, h3, _⟩ := hinv
  rw [hbb]
  have hd := dims_of_box
    ⟨⟨r.position.x, r.position.y, r.position.z⟩,
      ⟨r.position.x + r.size.x - 1, r.position.y + r.size.y - 1,
      r.position.z + r.size.z - 1⟩⟩
    (by dsimp only; omega) (by dsimp only; omega) (by dsimp only; omega)
  rw [hd]
  refine ⟨?_, ?_, ?_, rfl⟩
  · show r.position.x + r.size.x - 1 - r.position.x + 1 = r.size.x
    omega
  · show r.position.y + r.size.y - 1 - r.position.y + 1 = r.size.y
    omega
  · show r.position.z + r.size.z - 1 - r.position.z + 1 = r.size.z
    omega

/-! ## Merged region lemmas -/

theorem merged_palette_def (s : UniversalSchematic) :
    (get_merged_region s).palette = dedupFirst (mergedStates s) := rfl

theorem merged_blocks_def (s : UniversalSchematic) :
    (get_merged_region s).blocks
      = (mergedStates s).map (idxOfBS (dedupFirst (mergedStates s))) := rfl

theorem mergedStates_def (s : UniversalSchematic) :
    mergedStates s = (List.range
        (s.get_bounding_box.get_dimensions.x.toNat
          * s.get_bounding_box.get_dimensions.y.toNat
          * s.get_bounding_box.get_dimensions.z.toNat)).map
      (mergedStateAt s s.get_bounding_box.bmin
        s.get_bounding_box.get_dimensions.x.toNat
        s.get_bounding_box.get_dimensions.z.toNat) := rfl

theorem get_block_from_region_mem {s : UniversalSchematic} {k : String}
    {x y z : Int} {st : BlockState}
    (h : s.get_block_from_region k x y z = some st) : st ∈ s.palette.states := by
  unfold UniversalSchematic.get_block_from_region at h
  rw [Option.bind_eq_some] at h
  obtain ⟨reg, _, h⟩ := h
  rw [Option.bind_eq_some] at h
  obtain ⟨idx, _, h⟩ := h
  exact List.get?_mem h

theorem get_block_mem {s : UniversalSchematic} {x y z : Int} {st : BlockState}
    (h : s.get_block x y z = some st) : st ∈ s.palette.states := by
  unfold UniversalSchematic.get_block at h
  generalize s.regions = l at h
  induction l with
  | nil => exact Option.noConfusion h
  | cons e rest ih =>
    have he : UniversalSchematic.get_block_aux s x y z (e :: rest)
        = if e.2.get_bounding_box.containsB ⟨x, y, z⟩ then
            match s.get_block_from_region e.2.name x y z with
            | some b => some b
            | none => UniversalSchematic.get_block_aux s x y z rest
          else UniversalSchematic.get_block_aux s x y z rest := rfl
    rw [he] at h
    split at h
    · cases hgb : s.get_block_from_region e.2.name x y z with
      | none =>
        rw [hgb] at h
        exact ih h
      | some b =>
        rw [hgb] at h
        have hb : b = st := by
          injection h
        exact hb ▸ get_block_from_region_mem hgb
    · exact ih h

theorem mergedStateAt_mem (s : UniversalSchematic)
    (h0 : s.palette.states.get? 0 = some airState) (bmin : I3) (w l i : Nat) :
    mergedStateAt s bmin w l i ∈ s.palette.states := by
  show (match s.get_block (coordOfIndex bmin w l i).x (coordOfIndex bmin w l i).y
      (coordOfIndex bmin w l i).z with
    | some st => st
    | none => airState) ∈ s.palette.states
  cases hgb : s.get_block (coordOfIndex bmin w l i).x (coordOfIndex bmin w l i).y
      (coordOfIndex bmin w l i).z with
  | none =>
    exact List.get?_mem h0
  | some st =>
    exact get_block_mem hgb

theorem merged_palette_sub (s : UniversalSchematic)
    (h0 : s.palette.states.get? 0 = some airState) :
    ∀ b ∈ (get_merged_region s).palette, b ∈ s.palette.states := by
  intro b hb
  rw [merged_palette_def, mem_dedupFirst, mergedStates_def, List.mem_map] at hb
  obtain ⟨i, _, hi⟩ := hb
  exact hi ▸ mergedStateAt_mem s h0 _ _ _ i

theorem merged_palette_wf (s : UniversalSchematic)
    (h0 : s.palette.states.get? 0 = some airState)
    (hwf : ∀ b ∈ s.palette.states, stateWfB b = true) :
    ∀ b ∈ (get_merged_region s).palette, stateWfB b = true :=
  fun b hb => hwf b (merged_palette_sub s h0 b hb)

theorem merged_palette_len (s : UniversalSchematic)
    (h0 : s.palette.states.get? 0 = some airState) :
    (get_merged_region s).palette.length ≤ s.palette.states.length := by
  have hsub : (get_merged_region s).palette ⊆ s.palette.states :=
    fun b hb => merged_palette_sub s h0 b hb
  have hnd : (get_merged_region s).palette.Nodup := by
    rw [merged_palette_def]
    exact dedupFirst_nodup _
  exact (hnd.subperm hsub).length_le

theorem merged_ids_lt (s : UniversalSchematic)
    (h0 : s.palette.states.get? 0 = some airState)
    (hplen : s.palette.states.length < 2 ^ 31) :
    ∀ id ∈ (get_merged_region s).blocks, id < 2 ^ 32 := by
  intro id hid
  rw [merged_blocks_def, List.mem_map] at hid
  obtain ⟨st, hst, hidx⟩ := hid
  have hmem : st ∈ dedupFirst (mergedStates s) := mem_dedupFirst.mpr hst
  have hlt := idxOfBS_lt hmem
  have hlen := merged_palette_len s h0
  rw [merged_palette_def] at hlen
  omega

/-! ## Encoding lemmas for the codec round trip -/

theorem flatMap_mod_eq (l : List Nat) (h : ∀ id ∈ l, id < 2 ^ 32) :
    l.flatMap (fun id => encode_varint (id % 2 ^ 32)) = l.flatMap encode_varint := by
  induction l with
  | nil => rfl
  | cons a t ih =>
    simp only [List.flatMap_cons]
    rw [Nat.mod_eq_of_lt (h a (List.mem_cons_self a t)),
      ih (fun x hx => h x (List.mem_cons_of_mem a hx))]

theorem to_schematic_ok (s : UniversalSchematic)
    (hids : ∀ id ∈ (get_merged_region s).blocks, id < 2 ^ 32) :
    to_schematic s = .ok (.valid (toRoot s)) := by
  have hdec : decodeAllExcept
      ((get_merged_region s).blocks.flatMap
        (fun id => encode_varint (id % 2 ^ 32))).length
      ((get_merged_region s).blocks.flatMap
        (fun id => encode_varint (id % 2 ^ 32)))
      = .ok (get_merged_region s).blocks := by
    rw [flatMap_mod_eq _ hids]
    exact decodeAllExcept_flat _ _ hids le_rfl
  unfold to_schematic
  dsimp only
  rw [hdec]
  dsimp only
  unfold toRoot
  simp [cInsert]
  unfold blockDataBytes
  norm_num

/-! ## Entity and block entity tag round trips -/

theorem strmap_roundtrip (l : List (String × String)) :
    (l.map (fun p => (p.1, NbtTag.string p.2))).filterMap (fun e =>
      match e.2 with
      | NbtTag.string s => some (e.1, s)
      | _ => none) = l := by
  induction l with
  | nil => rfl
  | cons a t ih =>
    simp only [List.map_cons, List.filterMap_cons]
    rw [ih]

theorem be_from_to (be : BlockEntity) : BlockEntity.from_nbt be.to_nbt = be := by
  show BlockEntity.mk be.id ⟨be.position.x, be.position.y, be.position.z⟩
    ((be.nbtData.map (fun p => (p.1, NbtTag.string p.2))).filterMap
      (fun e =>
        match e.2 with
        | NbtTag.string s => some (e.1, s)
        | _ => none)) = be
  rw [strmap_roundtrip]

theorem ent_from_to (e : Entity) : Entity.from_nbt e.to_nbt = .ok e := by
  show Except.ok (Entity.mk e.id e.px e.py e.pz
    ((e.nbtData.map (fun p => (p.1, NbtTag.string p.2))).filterMap
      (fun q =>
        match q.2 with
        | NbtTag.string s => some (q.1, s)
        | _ => none))) = .ok e
  rw [strmap_roundtrip]

theorem entitiesFromTags_map (l : List Entity) :
    entitiesFromTags (l.map (fun en => NbtTag.compound en.to_nbt)) = .ok l := by
  induction l with
  | nil => rfl
  | cons e t ih =>
    simp only [List.map_cons, entitiesFromTags]
    rw [ent_from_to, ih]
    rfl

theorem bes_decode (l : List (I3 × BlockEntity)) :
    (l.map (fun p => NbtTag.compound p.2.to_nbt)).filterMap (fun t =>
      match t with
      | NbtTag.compound c => some (BlockEntity.from_nbt c)
      | _ => none) = l.map Prod.snd := by
  induction l with
  | nil => rfl
  | cons a t ih =>
    simp only [List.map_cons, List.filterMap_cons]
    rw [ih, be_from_to]

/-! ## Region fold characterizations -/

theorem foldl_add_entity (ents : List Entity) :
    ∀ r : Region, ents.foldl Region.add_entity r
      = { r with entities := r.entities ++ ents } := by
  induction ents with
  | nil =>
    intro r
    rw [List.append_nil]
    rfl
  | cons a t ih =>
    intro r
    rw [List.foldl_cons, ih]
    unfold Region.add_entity
    congr 1
    rw [List.append_assoc]
    rfl

theorem foldl_add_block_entity (bes : List BlockEntity) :
    ∀ r : Region, (∀ be ∈ bes, ∀ q ∈ r.blockEntities, q.1 ≠ be.position) →
      (bes.map (fun be => be.position)).Nodup →
      bes.foldl Region.add_block_entity r
        = { r with blockEntities :=
            r.blockEntities ++ bes.map (fun be => (be.position, be)) } := by
  induction bes with
  | nil =>
    intro r _ _
    rw [List.map_nil, List.append_nil]
    rfl
  | cons a t ih =>
    intro r hdisj hnd
    rw [List.foldl_cons]
    have hany : ¬ (r.blockEntities.any (fun e => decide (e.1 = a.position)) = true) := by
      rw [List.any_eq_true]
      rintro ⟨q, hq, hqd⟩
      rw [decide_eq_true_eq] at hqd
      exact hdisj a (List.mem_cons_self _ _) q hq hqd
    have hadd : r.add_block_entity a
        = { r with blockEntities := r.blockEntities ++ [(a.position, a)] } := by
      unfold Region.add_block_entity
      rw [if_neg hany]
    rw [hadd, ih]
    · congr 1
      rw [List.map_cons, List.append_assoc]
      rfl
    · intro be hbe q hq
      rw [List.mem_append] at hq
      rcases hq with hq | hq
      · exact hdisj be (List.mem_cons_of_mem _ hbe) q hq
      · rw [List.mem_singleton] at hq
        subst hq
        intro hEq
        rw [List.map_cons, List.nodup_cons] at hnd
        have hmem : be.position ∈ List.map (fun be => be.position) t :=
          List.mem_map_of_mem (fun be => be.position) hbe
        rw [← hEq] at hmem
        exact hnd.1 hmem
    · rw [List.map_cons, List.nodup_cons] at hnd
      exact hnd.2

/-! ## Scalar cast round trips for the dimension fields -/

theorem wrapI16_small {v : Int} (h1 : 0 ≤ v) (h2 : v ≤ 32767) :
    wrapI16 v = v := by
  unfold wrapI16
  omega

theorem i32u32_id {v : Int} (h1 : 0 ≤ v) (h2 : v < 2 ^ 31) :
    i32OfU32 (u32OfI16 v) = v := by
  unfold u32OfI16 i32OfU32
  split <;> omega

/-! ## Decoding the written root compound -/

theorem from_schematic_toRoot (s : UniversalSchematic) (r : Region) (nm : String)
    (hmeta : s.metadata = ⟨some nm, none⟩)
    (hreg : s.regions = [("Main", r)])
    (hinv : RegionInv r)
    (hx16 : r.size.x ≤ 32767) (hy16 : r.size.y ≤ 32767) (hz16 : r.size.z ≤ 32767)
    (h0 : s.palette.states.get? 0 = some airState)
    (hwfall : ∀ b ∈ s.palette.states, stateWfB b = true)
    (hplen : s.palette.states.length < 2 ^ 31) :
    ∃ res,
      (∀ t, res.getD t airState = (get_merged_region s).palette.getD t airState) ∧
      from_schematic (.valid (toRoot s)) = .ok
        { metadata := { name := some nm, mc_version := some 1343 },
          regions := [("Main",
            { name := "Main", position := ⟨0, 0, 0⟩,
              size := ⟨r.size.x, r.size.y, r.size.z⟩,
              blocks := (get_merged_region s).blocks,
              palette := res,
              blockEntities := r.blockEntities,
              entities := r.entities })],
          palette := GlobalPalette.new,
          default_region_name := "Main" } := by
  obtain ⟨hdx, hdy, hdz, hbmin⟩ := single_dims s r hreg hinv
  obtain ⟨hrname, hs1, hs2, hs3, hkey, hkeynd, _⟩ := hinv
  have hPwf := merged_palette_wf s h0 hwfall
  have hPnd : (get_merged_region s).palette.Nodup := by
    rw [merged_palette_def]
    exact dedupFirst_nodup _
  have hPlen : (get_merged_region s).palette.length < 2 ^ 31 :=
    lt_of_le_of_lt (merged_palette_len s h0) hplen
  obtain ⟨res, hres, hresD⟩ := palette_roundtrip _ hPwf hPnd hPlen
  refine ⟨res, hresD, ?_⟩
  have hids : ∀ id ∈ (get_merged_region s).blocks, id < 2 ^ 32 :=
    merged_ids_lt s h0 hplen
  have hname : (((getCompoundTag (toRoot s) "Metadata").toOption).bind (fun m =>
      (getStringTag m "Name").toOption)).getD "Unnamed" = nm := by
    rw [show getCompoundTag (toRoot s) "Metadata"
        = .ok (Metadata.to_nbt s.metadata) from rfl, hmeta]
    rfl
  have hver2 : (getIntTag (toRoot s) "DataVersion").toOption = some 1343 := by
    rw [show getIntTag (toRoot s) "DataVersion"
        = .ok (s.metadata.mc_version.getD 1343) from rfl, hmeta]
    rfl
  have hW : liftErr (getShortTag (toRoot s) "Width") = .ok r.size.x := by
    rw [show liftErr (getShortTag (toRoot s) "Width")
        = .ok ((wrapI16 s.get_bounding_box.get_dimensions.x).natAbs : Int) from rfl,
      hdx, wrapI16_small (by omega) (by omega)]
    congr 1
    exact Int.natAbs_of_nonneg (by omega)
  have hH : liftErr (getShortTag (toRoot s) "Height") = .ok r.size.y := by
    rw [show liftErr (getShortTag (toRoot s) "Height")
        = .ok ((wrapI16 s.get_bounding_box.get_dimensions.y).natAbs : Int) from rfl,
      hdy, wrapI16_small (by omega) (by omega)]
    congr 1
    exact Int.natAbs_of_nonneg (by omega)
  have hL : liftErr (getShortTag (toRoot s) "Length") = .ok r.size.z := by
    rw [show liftErr (getShortTag (toRoot s) "Length")
        = .ok ((wrapI16 s.get_bounding_box.get_dimensions.z).natAbs : Int) from rfl,
      hdz, wrapI16_small (by omega) (by omega)]
    congr 1
    exact Int.natAbs_of_nonneg (by omega)
  have hpp : parse_palette (toRoot s) = .ok res := by
    unfold parse_palette
    rw [show liftErr (getCompoundTag (toRoot s) "Palette")
        = .ok (convert_palette (get_merged_region s).palette).1 from rfl,
      show liftErr (getIntTag (toRoot s) "PaletteMax")
        = .ok (convert_palette (get_merged_region s).palette).2 from rfl]
    simp only [except_bind_ok]
    exact hres
  have hlt256 : ∀ b ∈ blockDataBytes s, b < 256 := by
    intro b hb
    unfold blockDataBytes at hb
    rw [List.mem_flatMap] at hb
    obtain ⟨id, _, hbid⟩ := hb
    exact encodeAux_lt_256 5 _ b hbid
  have hbytes : ((blockDataBytes s).map i8OfU8).map u8OfI8
      = (get_merged_region s).blocks.flatMap encode_varint := by
    rw [map_u8_i8_roundtrip _ hlt256]
    unfold blockDataBytes
    exact flatMap_mod_eq _ hids
  have hdecode : decodeBlockLoop
      ((get_merged_region s).blocks.flatMap encode_varint).length
      ((get_merged_region s).blocks.flatMap encode_varint)
      = (get_merged_region s).blocks := by
    have h2 := decodeBlockLoop_flat (get_merged_region s).blocks []
      ((get_merged_region s).blocks.flatMap encode_varint).length hids
      (by rw [List.append_nil])
    rw [List.append_nil] at h2
    rw [h2, show decodeBlockLoop (List.length ([] : List Nat)) [] = [] from rfl,
      List.append_nil]
  have hbd : ∀ w h l : Nat, parse_block_data (toRoot s) w h l
      = .ok (get_merged_region s).blocks := by
    intro w h l
    unfold parse_block_data
    rw [show liftErr (getByteArrayTag (toRoot s) "BlockData")
        = .ok ((blockDataBytes s).map i8OfU8) from rfl]
    simp only [except_bind_ok]
    rw [hbytes, hdecode]
  have hbes : parse_block_entities (toRoot s)
      = .ok (r.blockEntities.map Prod.snd) := by
    unfold parse_block_entities
    rw [show liftErr (getListTag (toRoot s) "BlockEntities")
        = .ok (s.regions.flatMap (fun e =>
            e.2.blockEntities.map (fun p => NbtTag.compound p.2.to_nbt))) from rfl]
    simp only [except_bind_ok]
    rw [hreg]
    simp only [List.flatMap_cons, List.flatMap_nil, List.append_nil]
    rw [bes_decode]
  have hents : parse_entities (toRoot s) = .ok r.entities := by
    unfold parse_entities
    rw [if_pos (show cContains (toRoot s) "Entities" = true from rfl)]
    rw [show liftErr (getListTag (toRoot s) "Entities")
        = .ok (s.regions.flatMap (fun e =>
            e.2.entities.map (fun en => NbtTag.compound en.to_nbt))) from rfl]
    simp only [except_bind_ok]
    rw [hreg]
    simp only [List.flatMap_cons, List.flatMap_nil, List.append_nil]
    exact entitiesFromTags_map r.entities
  have hsx : i32OfU32 (u32OfI16 r.size.x) = r.size.x := i32u32_id (by omega) (by omega)
  have hsy : i32OfU32 (u32OfI16 r.size.y) = r.size.y := i32u32_id (by omega) (by omega)
  have hsz : i32OfU32 (u32OfI16 r.size.z) = r.size.z := i32u32_id (by omega) (by omega)
  have hnd2 : ((r.blockEntities.map Prod.snd).map (fun be => be.position)).Nodup := by
    have hmapeq : (r.blockEntities.map Prod.snd).map (fun be => be.position)
        = r.blockEntities.map Prod.fst := by
      rw [List.map_map]
      apply List.map_congr_left
      intro q hq
      exact (hkey q hq).symm
    rw [hmapeq]
    exact hkeynd
  have hpairs : (r.blockEntities.map Prod.snd).map (fun be => (be.position, be))
      = r.blockEntities := by
    rw [List.map_map]
    have hcongr : ∀ q ∈ r.blockEntities,
        ((fun be => (be.position, be)) ∘ Prod.snd) q = id q := by
      intro q hq
      show (q.2.position, q.2) = q
      rw [← hkey q hq]
    rw [List.map_congr_left hcongr, List.map_id]
  have hdisj : ∀ be ∈ r.blockEntities.map Prod.snd,
      ∀ q ∈ (⟨"Main", ⟨0, 0, 0⟩, ⟨r.size.x, r.size.y, r.size.z⟩,
        (get_merged_region s).blocks, res, [], []⟩ : Region).blockEntities,
      q.1 ≠ be.position := by
    intro be _ q hq
    exact absurd hq (List.not_mem_nil q)
  have hfold : r.entities.foldl Region.add_entity
      ((r.blockEntities.map Prod.snd).foldl Region.add_block_entity
        (⟨"Main", ⟨0, 0, 0⟩, ⟨r.size.x, r.size.y, r.size.z⟩,
          (get_merged_region s).blocks, res, [], []⟩ : Region))
      = (⟨"Main", ⟨0, 0, 0⟩, ⟨r.size.x, r.size.y, r.size.z⟩,
          (get_merged_region s).blocks, res, r.blockEntities, r.entities⟩ : Region) := by
    rw [foldl_add_block_entity _ _ hdisj hnd2, foldl_add_entity]
    simp only [List.nil_append]
    rw [hpairs]
  unfold from_schematic
  simp only [hname, hver2, hW, hH, hL, hpp, hbd, hbes, hents, except_bind_ok,
    hsx, hsy, hsz, UniversalSchematic.new, Region.new, Metadata.default,
    UniversalSchematic.add_region, hfold, List.any_nil, Bool.false_eq_true,
    if_false, List.nil_append]

/-! ## Scan order index arithmetic -/

theorem flatten_lt (w h l i j k : Nat) (hw : i < w) (hh : j < h) (hl : k < l) :
    (j * l + k) * w + i < w * h * l := by
  have h1 : j * l + k < h * l := by
    have h2 : (j + 1) * l ≤ h * l := Nat.mul_le_mul_right l hh
    rw [Nat.succ_mul] at h2
    omega
  have h2 : ((j * l + k) + 1) * w ≤ (h * l) * w := Nat.mul_le_mul_right w h1
  rw [Nat.succ_mul] at h2
  have h3 : (h * l) * w = w * h * l := by ring
  omega

theorem coordOfIndex_flatten (bmin : I3) (w l i j k : Nat)
    (hw : i < w) (hl : k < l) :
    coordOfIndex bmin w l ((j * l + k) * w + i)
      = ⟨bmin.x + (i : Int), bmin.y + (j : Int), bmin.z + (k : Int)⟩ := by
  unfold coordOfIndex
  have hx : ((j * l + k) * w + i) % w = i := by
    rw [Nat.add_comm, Nat.add_mul_mod_self_right]
    exact Nat.mod_eq_of_lt hw
  have hdiv : ((j * l + k) * w + i) / w = j * l + k := by
    rw [Nat.add_comm, Nat.add_mul_div_right _ _ (by omega : 0 < w),
      Nat.div_eq_of_lt hw]
    omega
  have hz : (j * l + k) % l = k := by
    rw [Nat.add_comm, Nat.add_mul_mod_self_right]
    exact Nat.mod_eq_of_lt hl
  have hsmall : k * w + i < w * l := by
    have h1 : k * w + i < (k + 1) * w := by
      rw [Nat.succ_mul]
      omega
    have h2 : (k + 1) * w ≤ l * w := Nat.mul_le_mul_right w hl
    have h3 : l * w = w * l := Nat.mul_comm l w
    omega
  have hy : ((j * l + k) * w + i) / (w * l) = j := by
    have hnum : (j * l + k) * w + i = (k * w + i) + j * (w * l) := by ring
    rw [hnum, Nat.add_mul_div_right _ _ (by omega : 0 < w * l),
      Nat.div_eq_of_lt hsmall]
    omega
  rw [hx, hdiv, hz, hy]

theorem getD_idxOfBS {l : List BlockState} {b : BlockState} (h : b ∈ l) :
    l.getD (idxOfBS l b) airState = b := by
  rw [List.getD_eq_get?, get_idxOfBS h]
  rfl

theorem decoded_localBlock (s : UniversalSchematic) (res : List BlockState)
    (hresD : ∀ t, res.getD t airState
      = (get_merged_region s).palette.getD t airState)
    (i j k : Nat)
    (hi : i < s.get_bounding_box.get_dimensions.x.toNat)
    (hj : j < s.get_bounding_box.get_dimensions.y.toNat)
    (hk : k < s.get_bounding_box.get_dimensions.z.toNat) :
    res.getD ((get_merged_region s).blocks.getD
        ((j * s.get_bounding_box.get_dimensions.z.toNat + k)
          * s.get_bounding_box.get_dimensions.x.toNat + i) 0) airState
      = (s.get_block (s.get_bounding_box.bmin.x + i)
          (s.get_bounding_box.bmin.y + j)
          (s.get_bounding_box.bmin.z + k)).getD airState := by
  have hflat := flatten_lt s.get_bounding_box.get_dimensions.x.toNat
    s.get_bounding_box.get_dimensions.y.toNat
    s.get_bounding_box.get_dimensions.z.toNat i j k hi hj hk
  have hb : (get_merged_region s).blocks.getD
      ((j * s.get_bounding_box.get_dimensions.z.toNat + k)
        * s.get_bounding_box.get_dimensions.x.toNat + i) 0
      = idxOfBS (dedupFirst (mergedStates s))
          (mergedStateAt s s.get_bounding_box.bmin
            s.get_bounding_box.get_dimensions.x.toNat
            s.get_bounding_box.get_dimensions.z.toNat
            ((j * s.get_bounding_box.get_dimensions.z.toNat + k)
              * s.get_bounding_box.get_dimensions.x.toNat + i)) := by
    rw [merged_blocks_def, List.getD_eq_get?, List.get?_map, mergedStates_def,
      List.get?_map, List.get?_range hflat]
    rfl
  have hmem : mergedStateAt s s.get_bounding_box.bmin
      s.get_bounding_box.get_dimensions.x.toNat
      s.get_bounding_box.get_dimensions.z.toNat
      ((j * s.get_bounding_box.get_dimensions.z.toNat + k)
        * s.get_bounding_box.get_dimensions.x.toNat + i)
      ∈ dedupFirst (mergedStates s) := by
    rw [mem_dedupFirst, mergedStates_def]
    exact List.mem_map_of_mem _ (List.mem_range.mpr hflat)
  rw [hb, hresD, merged_palette_def, getD_idxOfBS hmem]
  unfold mergedStateAt
  rw [coordOfIndex_flatten s.get_bounding_box.bmin
    s.get_bounding_box.get_dimensions.x.toNat
    s.get_bounding_box.get_dimensions.z.toNat i j k hi hk]
  dsimp only
  cases hgb : s.get_block (s.get_bounding_box.bmin.x + (i : Int))
      (s.get_bounding_box.bmin.y + (j : Int))
      (s.get_bounding_box.bmin.z + (k : Int)) with
  | none => rfl
  | some st => rfl

/-! ## Claim theorems -/

/-- C2: for every unsigned 32-bit value v, decode_varint applied to
encode_varint of v returns v; encode_varint of 0 is exactly the single
byte 0; and the length of encode_varint of v is the minimum number of
7-bit groups needed to represent v. -/
theorem C2_varint_roundtrip (v : Nat) (h : v < 2 ^ 32) :
    decode_varint (encode_varint v) 0 0 = .ok (v, []) ∧
    encode_varint 0 = [0] ∧
    1 ≤ (encode_varint v).length ∧
    v < 2 ^ (7 * (encode_varint v).length) ∧
    (∀ m, 1 ≤ m → v < 2 ^ (7 * m) → (encode_varint v).length ≤ m) := by
  have h6 : v < 128 ^ (5 + 1) := by
    calc v < 2 ^ 32 := h
      _ ≤ 128 ^ 6 := by norm_num
  refine ⟨?_, rfl, encodeAux_length_pos 5 v, ?_, ?_⟩
  · have := decode_encode_varint (v := v) [] h
    simpa using this
  · exact encodeAux_length_bound 5 v h6
  · intro m hm hvm
    exact encodeAux_length_min 5 v m h6 hm hvm

/-- Witness for C2 at v = 300. -/
theorem C2_varint_roundtrip_witness :
    (300 : Nat) < 2 ^ 32 ∧
    (decode_varint (encode_varint 300) 0 0 = .ok (300, []) ∧
     encode_varint 0 = [0] ∧
     1 ≤ (encode_varint 300).length ∧
     (300 : Nat) < 2 ^ (7 * (encode_varint 300).length) ∧
     (∀ m, 1 ≤ m → (300 : Nat) < 2 ^ (7 * m) → (encode_varint 300).length ≤ m)) :=
  ⟨by norm_num, C2_varint_roundtrip 300 (by norm_num)⟩

/-- C6: decode_varint reads bytes until it finds one with the high bit
clear and returns the accumulated u32 of the consumed low seven-bit
groups; it fails with the too-long decode error when five continuation
bytes are consumed without a final byte, so it never reads more than
five bytes from the stream. -/
theorem C6_decode_varint_spec :
    (∀ (pre : List Nat) (b : Nat) (rest : List Nat),
        (∀ x ∈ pre, x &&& 128 ≠ 0) → b &&& 128 = 0 → pre.length ≤ 4 →
        decode_varint (pre ++ b :: rest) 0 0
          = .ok (gval (pre ++ [b]) % 2 ^ 32, rest)) ∧
    (∀ (b1 b2 b3 b4 b5 : Nat) (rest : List Nat),
        b1 &&& 128 ≠ 0 → b2 &&& 128 ≠ 0 → b3 &&& 128 ≠ 0 →
        b4 &&& 128 ≠ 0 → b5 &&& 128 ≠ 0 →
        decode_varint (b1 :: b2 :: b3 :: b4 :: b5 :: rest) 0 0
          = .error "Varint is too long") ∧
    (∀ (bs : List Nat) (v : Nat) (rest : List Nat),
        decode_varint bs 0 0 = .ok (v, rest) →
        ∃ k, 1 ≤ k ∧ k ≤ 5 ∧ rest = bs.drop k) := by
  refine ⟨?_, ?_, ?_⟩
  · intro pre b rest hpre hb hlen
    have := decode_reads pre b rest 0 0 hpre hb (by omega) (by norm_num)
    simpa using this
  · intro b1 b2 b3 b4 b5 rest h1 h2 h3 h4 h5
    exact decode_overlong b1 b2 b3 b4 b5 rest h1 h2 h3 h4 h5
  · intro bs v rest hd
    obtain ⟨k, hk1, hk2, hk3⟩ := decode_consumes bs 0 0 v rest (by norm_num) hd
    exact ⟨k, hk1, by omega, hk3⟩

/-- Witness for C6 at a two-byte value, an overlong stream and a
one-byte stream. -/
theorem C6_decode_varint_spec_witness :
    ((∀ x ∈ ([172] : List Nat), x &&& 128 ≠ 0) ∧ (2 : Nat) &&& 128 = 0 ∧
      ([172] : List Nat).length ≤ 4 ∧
      decode_varint ([172] ++ 2 :: []) 0 0 = .ok (gval ([172] ++ [2]) % 2 ^ 32, [])) ∧
    ((128 : Nat) &&& 128 ≠ 0 ∧
      decode_varint [128, 128, 128, 128, 128] 0 0 = .error "Varint is too long") ∧
    (decode_varint [5] 0 0 = .ok (5, []) ∧
      ∃ k, 1 ≤ k ∧ k ≤ 5 ∧ ([] : List Nat) = ([5] : List Nat).drop k) := by
  refine ⟨⟨by decide, by decide, by decide, ?_⟩, ⟨by decide, ?_⟩, by rfl, ?_⟩
  · exact C6_decode_varint_spec.1 [172] 2 [] (by decide) (by decide) (by decide)
  · exact C6_decode_varint_spec.2.1 128 128 128 128 128 []
      (by decide) (by decide) (by decide) (by decide) (by decide)
  · exact C6_decode_varint_spec.2.2 [5] 5 [] (by rfl)

/-- C5: when the number of ids decoded from the block-data byte array
differs from width times height times length, parse_block_data still
returns the decoded array successfully and does not abort the
conversion. -/
theorem C5_length_mismatch_lenient (root : NbtCompound) (bdI : List Int)
    (w h l : Nat)
    (hget : getByteArrayTag root "BlockData" = .ok bdI)
    (hmis : (decodeBlockLoop (bdI.map u8OfI8).length (bdI.map u8OfI8)).length
      ≠ w * h * l) :
    parse_block_data root w h l
      = .ok (decodeBlockLoop (bdI.map u8OfI8).length (bdI.map u8OfI8)) := by
  simp only [parse_block_data, hget, liftErr]
  rfl

/-- Witness for C5: one decoded id against an expected volume of
eight. -/
theorem C5_length_mismatch_lenient_witness :
    getByteArrayTag [("BlockData", NbtTag.byteArray [0])] "BlockData" = .ok [0] ∧
    (decodeBlockLoop (([0] : List Int).map u8OfI8).length
      (([0] : List Int).map u8OfI8)).length ≠ 2 * 2 * 2 ∧
    parse_block_data [("BlockData", NbtTag.byteArray [0])] 2 2 2
      = .ok (decodeBlockLoop (([0] : List Int).map u8OfI8).length
        (([0] : List Int).map u8OfI8)) :=
  ⟨by rfl, by decide,
    C5_length_mismatch_lenient [("BlockData", NbtTag.byteArray [0])] [0] 2 2 2
      (by rfl) (by decide)⟩

/-- C4 counterexample: a block-data stream that is a single varint of
six continuation bytes does not abort from_schematic; the conversion
returns a schematic (the source prints the decode error and breaks out
of the loop), refuting the claim that the overlong varint is fatal to
the whole conversion. -/
theorem C4_counterexample :
    convOk (from_schematic (Bytes.valid
      [("Width", .short 1), ("Height", .short 1), ("Length", .short 1),
       ("Palette", .compound [("minecraft:air", .int 0)]), ("PaletteMax", .int 0),
       ("BlockData", .byteArray [-128, -128, -128, -128, -128, -128]),
       ("BlockEntities", .list [])])) = true := by
  decide

/-- C4 amended: a varint with more than five continuation bytes in the
block-data stream stops the block-data decode at that point;
parse_block_data returns the ids decoded before it and the conversion
does not abort. -/
theorem C4_overlong_varint_stops_decode (ids junk : List Nat) (w h l : Nat)
    (hids : ∀ id ∈ ids, id < 2 ^ 32) (hjunk : ∀ b ∈ junk, b < 256) :
    parse_block_data
      [("BlockData", NbtTag.byteArray
        ((ids.flatMap encode_varint
          ++ 128 :: 128 :: 128 :: 128 :: 128 :: junk).map i8OfU8))]
      w h l = .ok ids := by
  have hbytes : ∀ b ∈ ids.flatMap encode_varint
      ++ 128 :: 128 :: 128 :: 128 :: 128 :: junk, b < 256 := by
    intro b hb
    rw [List.mem_append] at hb
    rcases hb with hb | hb
    · rw [List.mem_flatMap] at hb
      obtain ⟨id, _, hbe⟩ := hb
      exact encodeAux_lt_256 5 id b hbe
    · simp only [List.mem_cons] at hb
      rcases hb with h | h | h | h | h | h
      · omega
      · omega
      · omega
      · omega
      · omega
      · exact hjunk b h
  have hrt := map_u8_i8_roundtrip _ hbytes
  have h1 : parse_block_data
      [("BlockData", NbtTag.byteArray
        ((ids.flatMap encode_varint
          ++ 128 :: 128 :: 128 :: 128 :: 128 :: junk).map i8OfU8))] w h l
      = .ok (decodeBlockLoop
          (((ids.flatMap encode_varint
            ++ 128 :: 128 :: 128 :: 128 :: 128 :: junk).map i8OfU8).map u8OfI8).length
          (((ids.flatMap encode_varint
            ++ 128 :: 128 :: 128 :: 128 :: 128 :: junk).map i8OfU8).map u8OfI8)) := rfl
  rw [h1, hrt]
  have hflat := decodeBlockLoop_flat ids (128 :: 128 :: 128 :: 128 :: 128 :: junk)
    (ids.flatMap encode_varint ++ 128 :: 128 :: 128 :: 128 :: 128 :: junk).length
    hids le_rfl
  rw [hflat, decodeBlockLoop_overlong]
  simp

/-- Witness for C4 amended at two leading ids. -/
theorem C4_overlong_varint_stops_decode_witness :
    (∀ id ∈ ([1, 2] : List Nat), id < 2 ^ 32) ∧
    (∀ b ∈ ([] : List Nat), b < 256) ∧
    parse_block_data
      [("BlockData", NbtTag.byteArray
        ((([1, 2] : List Nat).flatMap encode_varint
          ++ 128 :: 128 :: 128 :: 128 :: 128 :: ([] : List Nat)).map i8OfU8))]
      1 1 1 = .ok [1, 2] :=
  ⟨by decide, by decide,
    C4_overlong_varint_stops_decode [1, 2] [] 1 1 1 (by decide) (by decide)⟩

/-- C7: for every input buffer, is_schematic returns a boolean without
an error path: it is true exactly when the container parses to a tag
tree in which Version and DataVersion are ints, Width, Height and
Length are shorts, and BlockData is a byte array; on a buffer whose
decompression or parse fails it is false. -/
theorem C7_is_schematic_sniff (b : Bytes) :
    (is_schematic b = true ↔ ∃ root, b = Bytes.valid root ∧
      isOkE (getIntTag root "Version") = true ∧
      isOkE (getIntTag root "DataVersion") = true ∧
      isOkE (getShortTag root "Width") = true ∧
      isOkE (getShortTag root "Height") = true ∧
      isOkE (getShortTag root "Length") = true ∧
      isOkE (getByteArrayTag root "BlockData") = true) ∧
    (∀ junk, b = Bytes.invalid junk → is_schematic b = false) := by
  constructor
  · cases b with
    | invalid junk =>
      simp [is_schematic]
    | valid root =>
      simp only [is_schematic, Bool.and_eq_true]
      constructor
      · rintro ⟨⟨⟨⟨⟨h1, h2⟩, h3⟩, h4⟩, h5⟩, h6⟩
        exact ⟨root, rfl, h1, h2, h3, h4, h5, h6⟩
      · rintro ⟨root', heq, h1, h2, h3, h4, h5, h6⟩
        cases heq
        exact ⟨⟨⟨⟨⟨h1, h2⟩, h3⟩, h4⟩, h5⟩, h6⟩
  · intro junk heq
    cases heq
    rfl

/-- C8: when the encoded palette has maximum id N but some ids in the
range up to N are mapped by no palette key, parse_palette succeeds with
a vector of length N plus one in which every unmapped id resolves to the
air block state. -/
theorem C8_palette_gaps_resolve_to_air (entries : List (String × NbtTag))
    (N : Nat) (hN : N < 2 ^ 31)
    (hin : ∀ p ∈ entries, ∀ id : Int, p.2 = NbtTag.int id → usizeOfI32 id ≤ N) :
    ∃ res, parse_palette
        [("Palette", .compound entries), ("PaletteMax", .int (N : Int))]
      = .ok res ∧ res.length = N + 1 ∧
      ∀ i : Nat, i ≤ N →
        (∀ p ∈ entries, ∀ id : Int, p.2 = NbtTag.int id → usizeOfI32 id ≠ i) →
        res.get? i = some airState := by
  have hload : parse_palette
      [("Palette", .compound entries), ("PaletteMax", .int (N : Int))]
      = paletteFill entries (List.replicate (usizeOfI32 (N : Int) + 1) airState) := rfl
  rw [hload, usizeOfI32_ofNat (by omega)]
  obtain ⟨res, hres, hlen, hun⟩ := paletteFill_length_unmapped entries
    (List.replicate (N + 1) airState) (by
      intro p hp id hid
      rw [List.length_replicate]
      have := hin p hp id hid
      omega)
  refine ⟨res, hres, by rw [hlen, List.length_replicate], ?_⟩
  intro i hi hiun
  rw [hun i hiun]
  rw [List.get?_eq_getElem?, List.getElem?_replicate, if_pos (by omega)]

/-- Witness for C8: one mapped id among five slots. -/
theorem C8_palette_gaps_resolve_to_air_witness :
    (4 : Nat) < 2 ^ 31 ∧
    (∀ p ∈ [("minecraft:stone", NbtTag.int 2)], ∀ id : Int,
      p.2 = NbtTag.int id → usizeOfI32 id ≤ 4) ∧
    ∃ res, parse_palette
        [("Palette", .compound [("minecraft:stone", NbtTag.int 2)]),
         ("PaletteMax", .int ((4 : Nat) : Int))]
      = .ok res ∧ res.length = 4 + 1 ∧
      ∀ i : Nat, i ≤ 4 →
        (∀ p ∈ [("minecraft:stone", NbtTag.int 2)], ∀ id : Int,
          p.2 = NbtTag.int id → usizeOfI32 id ≠ i) →
        res.get? i = some airState :=
  ⟨by norm_num,
   by
    intro p hp id hid
    rw [List.mem_singleton] at hp
    subst hp
    injection hid with h
    subst h
    unfold usizeOfI32
    omega,
   C8_palette_gaps_resolve_to_air [("minecraft:stone", NbtTag.int 2)] 4
      (by norm_num) (by
        intro p hp id hid
        rw [List.mem_singleton] at hp
        subst hp
        injection hid with h
        subst h
        unfold usizeOfI32
        omega)⟩

/-- C10: parse_palette is not total on adversarial input: an entry whose
integer id is negative or exceeds the palette maximum indexes the
air-filled vector out of bounds, and the decode panics (the modelled
out-of-bounds write) instead of returning an error value. -/
theorem C10_palette_oob_panics (entries : List (String × NbtTag)) (N : Nat)
    (hN : N < 2 ^ 31)
    (hoob : ∃ p ∈ entries, ∃ id : Int, p.2 = NbtTag.int id ∧
      -(2 ^ 31) ≤ id ∧ id < 2 ^ 31 ∧ (id < 0 ∨ (N : Int) < id)) :
    parse_palette [("Palette", .compound entries), ("PaletteMax", .int (N : Int))]
      = .error (.panicked "index out of bounds") := by
  have hload : parse_palette
      [("Palette", .compound entries), ("PaletteMax", .int (N : Int))]
      = paletteFill entries (List.replicate (usizeOfI32 (N : Int) + 1) airState) := rfl
  rw [hload, usizeOfI32_ofNat (by omega)]
  apply paletteFill_panics
  obtain ⟨p, hp, id, hid, hlo, hhi, hcase⟩ := hoob
  refine ⟨p, hp, id, hid, ?_⟩
  rw [List.length_replicate]
  unfold usizeOfI32
  rcases hcase with hneg | hgt
  · omega
  · omega

/-- Witness for C10: id 3 against palette maximum 1. -/
theorem C10_palette_oob_panics_witness :
    (1 : Nat) < 2 ^ 31 ∧
    (∃ p ∈ [("minecraft:stone", NbtTag.int 3)], ∃ id : Int,
      p.2 = NbtTag.int id ∧ -(2 ^ 31) ≤ id ∧ id < 2 ^ 31 ∧
      (id < 0 ∨ ((1 : Nat) : Int) < id)) ∧
    parse_palette
        [("Palette", .compound [("minecraft:stone", NbtTag.int 3)]),
         ("PaletteMax", .int ((1 : Nat) : Int))]
      = .error (.panicked "index out of bounds") :=
  ⟨by norm_num,
   ⟨("minecraft:stone", NbtTag.int 3), List.mem_singleton.mpr rfl, 3, rfl,
     by norm_num, by norm_num, Or.inr (by norm_num)⟩,
   C10_palette_oob_panics [("minecraft:stone", NbtTag.int 3)] 1 (by norm_num)
     ⟨("minecraft:stone", NbtTag.int 3), List.mem_singleton.mpr rfl, 3, rfl,
       by norm_num, by norm_num, Or.inr (by norm_num)⟩⟩

/-- C3 counterexample: a root holding every other required field but no
DataVersion converts successfully, with no source version recorded —
refuting the claim that an absent data-version is a fatal parse
error. -/
theorem C3_counterexample :
    isOkE (getIntTag
      [("Width", NbtTag.short 1), ("Height", NbtTag.short 1),
       ("Length", NbtTag.short 1),
       ("Palette", NbtTag.compound [("minecraft:air", NbtTag.int 0)]),
       ("PaletteMax", NbtTag.int 0), ("BlockData", NbtTag.byteArray [0]),
       ("BlockEntities", NbtTag.list [])] "DataVersion") = false ∧
    (from_schematic (Bytes.valid
      [("Width", NbtTag.short 1), ("Height", NbtTag.short 1),
       ("Length", NbtTag.short 1),
       ("Palette", NbtTag.compound [("minecraft:air", NbtTag.int 0)]),
       ("PaletteMax", NbtTag.int 0), ("BlockData", NbtTag.byteArray [0]),
       ("BlockEntities", NbtTag.list [])])).toOption.map
        (fun s => s.metadata.mc_version) = some none := by
  constructor
  · rfl
  · rfl

/-- C3 amended: from_schematic fails with an error naming the missing
field when Width, Height or Length is absent or mistyped (checked in
that order), and when BlockData is absent or mistyped once the earlier
fields and the palette were read; a missing DataVersion is tolerated
and leaves the source version unset. -/
theorem C3_missing_field_errors :
    (∀ (root : NbtCompound) (m : String),
      getShortTag root "Width" = .error m →
      from_schematic (.valid root) = .error (.parseErr m) ∧ m = tagErr "Width") ∧
    (∀ (root : NbtCompound) (w : Int) (m : String),
      getShortTag root "Width" = .ok w →
      getShortTag root "Height" = .error m →
      from_schematic (.valid root) = .error (.parseErr m) ∧ m = tagErr "Height") ∧
    (∀ (root : NbtCompound) (w h : Int) (m : String),
      getShortTag root "Width" = .ok w →
      getShortTag root "Height" = .ok h →
      getShortTag root "Length" = .error m →
      from_schematic (.valid root) = .error (.parseErr m) ∧ m = tagErr "Length") ∧
    (∀ (root : NbtCompound) (w h l : Int) (pal : List BlockState) (m : String),
      getShortTag root "Width" = .ok w →
      getShortTag root "Height" = .ok h →
      getShortTag root "Length" = .ok l →
      parse_palette root = .ok pal →
      getByteArrayTag root "BlockData" = .error m →
      from_schematic (.valid root) = .error (.parseErr m) ∧ m = tagErr "BlockData") := by
  have hshort : ∀ (c : NbtCompound) (k : String) (m : String),
      getShortTag c k = .error m → m = tagErr k := by
    intro c k m h
    unfold getShortTag at h
    split at h
    · exact absurd h (by simp)
    · injection h with h
      exact h.symm
  have hbarr : ∀ (c : NbtCompound) (k : String) (m : String),
      getByteArrayTag c k = .error m → m = tagErr k := by
    intro c k m h
    unfold getByteArrayTag at h
    split at h
    · exact absurd h (by simp)
    · injection h with h
      exact h.symm
  refine ⟨?_, ?_, ?_, ?_⟩
  · intro root m hw
    refine ⟨?_, hshort root "Width" m hw⟩
    simp [from_schematic, hw, liftErr, except_bind_err, except_bind_ok]
  · intro root w m hw hh
    refine ⟨?_, hshort root "Height" m hh⟩
    simp [from_schematic, hw, hh, liftErr, except_bind_err, except_bind_ok]
  · intro root w h m hw hh hl
    refine ⟨?_, hshort root "Length" m hl⟩
    simp [from_schematic, hw, hh, hl, liftErr, except_bind_err, except_bind_ok]
  · intro root w h l pal m hw hh hl hpal hbd
    refine ⟨?_, hbarr root "BlockData" m hbd⟩
    simp [from_schematic, parse_block_data, hw, hh, hl, hpal, hbd, liftErr,
      except_bind_err, except_bind_ok]

/-- Witness for C3 amended: an empty root for the Width conjunct, and
roots with increasing prefixes of the fields for the later
conjuncts. -/
theorem C3_missing_field_errors_witness :
    (getShortTag [] "Width" = .error (tagErr "Width") ∧
      from_schematic (.valid []) = .error (.parseErr (tagErr "Width"))) ∧
    (getShortTag [("Width", NbtTag.short 1)] "Width" = .ok 1 ∧
      getShortTag [("Width", NbtTag.short 1)] "Height" = .error (tagErr "Height") ∧
      from_schematic (.valid [("Width", NbtTag.short 1)])
        = .error (.parseErr (tagErr "Height"))) ∧
    (from_schematic (.valid [("Width", NbtTag.short 1), ("Height", NbtTag.short 1)])
        = .error (.parseErr (tagErr "Length"))) ∧
    (parse_palette [("Width", NbtTag.short 1), ("Height", NbtTag.short 1),
        ("Length", NbtTag.short 1),
        ("Palette", NbtTag.compound [("minecraft:air", NbtTag.int 0)]),
        ("PaletteMax", NbtTag.int 0)] = .ok [airState] ∧
      from_schematic (.valid [("Width", NbtTag.short 1), ("Height", NbtTag.short 1),
        ("Length", NbtTag.short 1),
        ("Palette", NbtTag.compound [("minecraft:air", NbtTag.int 0)]),
        ("PaletteMax", NbtTag.int 0)])
        = .error (.parseErr (tagErr "BlockData"))) := by
  refine ⟨⟨by rfl, ?_⟩, ⟨by rfl, by rfl, ?_⟩, ?_, by rfl, ?_⟩
  · exact (C3_missing_field_errors.1 [] (tagErr "Width") (by rfl)).1
  · exact (C3_missing_field_errors.2.1 [("Width", NbtTag.short 1)] 1
      (tagErr "Height") (by rfl) (by rfl)).1
  · exact (C3_missing_field_errors.2.2.1
      [("Width", NbtTag.short 1), ("Height", NbtTag.short 1)] 1 1
      (tagErr "Length") (by rfl) (by rfl) (by rfl)).1
  · exact (C3_missing_field_errors.2.2.2
      [("Width", NbtTag.short 1), ("Height", NbtTag.short 1),
       ("Length", NbtTag.short 1),
       ("Palette", NbtTag.compound [("minecraft:air", NbtTag.int 0)]),
       ("PaletteMax", NbtTag.int 0)] 1 1 1 [airState]
      (tagErr "BlockData") (by rfl) (by rfl) (by rfl) (by rfl) (by rfl)).1

/-- C9: on a fresh schematic, setting stone at the origin and dirt at
coordinate five-five-five creates the default Main region at position
zero with size six on every axis, and reading the never-written interior
coordinate two-two-two yields the air block state rather than no
value. -/
theorem C9_default_region_scenario :
    ((UniversalSchematic.new "Test").set_block 0 0 0
      (BlockState.new "minecraft:stone")).1 = true ∧
    ((((UniversalSchematic.new "Test").set_block 0 0 0
        (BlockState.new "minecraft:stone")).2.set_block 5 5 5
        (BlockState.new "minecraft:dirt")).1 = true) ∧
    (((((UniversalSchematic.new "Test").set_block 0 0 0
        (BlockState.new "minecraft:stone")).2.set_block 5 5 5
        (BlockState.new "minecraft:dirt")).2.get_region "Main").map Region.position
      = some ⟨0, 0, 0⟩) ∧
    (((((UniversalSchematic.new "Test").set_block 0 0 0
        (BlockState.new "minecraft:stone")).2.set_block 5 5 5
        (BlockState.new "minecraft:dirt")).2.get_region "Main").map Region.size
      = some ⟨6, 6, 6⟩) ∧
    ((((UniversalSchematic.new "Test").set_block 0 0 0
        (BlockState.new "minecraft:stone")).2.set_block 5 5 5
        (BlockState.new "minecraft:dirt")).2.get_block 2 2 2
      = some airState) := by
  refine ⟨by decide, by decide, by decide, by decide, by decide⟩

/-- C1 counterexample: for the schematic built by a single stone write
at the origin, decoding its encoding yields a schematic whose get_block
at the origin returns air, not stone — the decoded region carries its
ids in a self-contained local palette while get_block translates ids
through the schematic-wide palette, which after decoding holds only
air.  The claim that the round trip preserves the block state at every
coordinate is therefore false as stated. -/
theorem C1_counterexample :
    ((build "T" [BuildOp.setBlock 0 0 0 (BlockState.new "minecraft:stone")]).get_block
      0 0 0 = some (BlockState.new "minecraft:stone")) ∧
    (((to_schematic (build "T"
        [BuildOp.setBlock 0 0 0 (BlockState.new "minecraft:stone")])).bind
      from_schematic).toOption.map (fun s2 => s2.get_block 0 0 0)
      = some (some airState)) := by
  exact ⟨by decide, by decide⟩

/-- C1 (amended): for every nonempty build of block, entity and
block-entity mutations on the single default region — with states that
survive the palette key grammar, coordinates representable in i32,
fewer than 2 to the 31 minus 1 operations, and bounding box dimensions
that fit the i16 wire fields — encoding succeeds and decoding the
encoding succeeds, preserving the region count, the metadata name, the
entity list, the block-entity list, the region dimensions, and the
block state at every coordinate of the bounding box when the decoded
region is observed through its own self-contained palette at
coordinates relative to the bounding box minimum.  Identity under
get_block and the region origin are not preserved, per the
counterexample. -/
theorem C1_roundtrip_amended (name : String) (ops : List BuildOp)
    (hne : ops ≠ [])
    (hwf : ∀ op ∈ ops, opWfB op = true)
    (hlen : ops.length < 2 ^ 31 - 1)
    (hdims : dimsFit (build name ops) = true) :
    ∃ bytes s2 r r2,
      to_schematic (build name ops) = .ok bytes ∧
      from_schematic bytes = .ok s2 ∧
      (build name ops).regions = [("Main", r)] ∧
      s2.regions.length = (build name ops).regions.length ∧
      s2.metadata.name = some name ∧
      s2.get_region "Main" = some r2 ∧
      r2.entities = r.entities ∧
      r2.blockEntities = r.blockEntities ∧
      r2.size = r.size ∧
      (∀ i j k : Nat,
        i < r.size.x.toNat → j < r.size.y.toNat → k < r.size.z.toNat →
        localBlock r2 i j k
          = ((build name ops).get_block
              ((build name ops).get_bounding_box.bmin.x + i)
              ((build name ops).get_bounding_box.bmin.y + j)
              ((build name ops).get_bounding_box.bmin.z + k)).getD airState) := by
  obtain ⟨hdef, h0, hnd, hwfall, r, hreg, hrinv⟩ := build_inv name ops hne hwf
  have hplen : (build name ops).palette.states.length < 2 ^ 31 := by
    have := build_palette_len name ops
    omega
  have hmeta := build_metadata name ops
  obtain ⟨hdx, hdy, hdz, hbmin⟩ := single_dims (build name ops) r hreg hrinv
  unfold dimsFit at hdims
  rw [decide_eq_true_iff] at hdims
  obtain ⟨hX, hY, hZ⟩ := hdims
  rw [hdx] at hX
  rw [hdy] at hY
  rw [hdz] at hZ
  have hids := merged_ids_lt (build name ops) h0 hplen
  have hts := to_schematic_ok (build name ops) hids
  obtain ⟨res, hresD, hfs⟩ := from_schematic_toRoot (build name ops) r name
    hmeta hreg hrinv hX hY hZ h0 hwfall hplen
  refine ⟨.valid (toRoot (build name ops)), _, r, _, hts, hfs, hreg, ?_, rfl,
    lookupRegion_single _ _, rfl, rfl, rfl, ?_⟩
  · rw [hreg]
    rfl
  · intro i j k hi hj hk
    have hloc := decoded_localBlock (build name ops) res hresD i j k
      (by rw [hdx]; exact hi) (by rw [hdy]; exact hj) (by rw [hdz]; exact hk)
    show res.getD ((get_merged_region (build name ops)).blocks.getD
        ((j * r.size.z.toNat + k) * r.size.x.toNat + i) 0) airState
      = ((build name ops).get_block
          ((build name ops).get_bounding_box.bmin.x + i)
          ((build name ops).get_bounding_box.bmin.y + j)
          ((build name ops).get_bounding_box.bmin.z + k)).getD airState
    rw [← hdx, ← hdz]
    exact hloc

/-- C1 witness: the amended round trip applied to the concrete build
with a single stone write at the origin, every hypothesis discharged by
evaluation. -/
theorem C1_roundtrip_amended_witness :
    ([BuildOp.setBlock 0 0 0 (BlockState.new "minecraft:stone")]
      ≠ ([] : List BuildOp)) ∧
    (∀ op ∈ [BuildOp.setBlock 0 0 0 (BlockState.new "minecraft:stone")],
      opWfB op = true) ∧
    ([BuildOp.setBlock 0 0 0 (BlockState.new "minecraft:stone")].length
      < 2 ^ 31 - 1) ∧
    dimsFit (build "W"
      [BuildOp.setBlock 0 0 0 (BlockState.new "minecraft:stone")]) = true ∧
    (∃ bytes s2 r r2,
      to_schematic (build "W"
        [BuildOp.setBlock 0 0 0 (BlockState.new "minecraft:stone")]) = .ok bytes ∧
      from_schematic bytes = .ok s2 ∧
      (build "W" [BuildOp.setBlock 0 0 0
        (BlockState.new "minecraft:stone")]).regions = [("Main", r)] ∧
      s2.regions.length = (build "W" [BuildOp.setBlock 0 0 0
        (BlockState.new "minecraft:stone")]).regions.length ∧
      s2.metadata.name = some "W" ∧
      s2.get_region "Main" = some r2 ∧
      r2.entities = r.entities ∧
      r2.blockEntities = r.blockEntities ∧
      r2.size = r.size ∧
      (∀ i j k : Nat,
        i < r.size.x.toNat → j < r.size.y.toNat → k < r.size.z.toNat →
        localBlock r2 i j k
          = ((build "W" [BuildOp.setBlock 0 0 0
                (BlockState.new "minecraft:stone")]).get_block
              ((build "W" [BuildOp.setBlock 0 0 0
                (BlockState.new "minecraft:stone")]).get_bounding_box.bmin.x + i)
              ((build "W" [BuildOp.setBlock 0 0 0
                (BlockState.new "minecraft:stone")]).get_bounding_box.bmin.y + j)
              ((build "W" [BuildOp.setBlock 0 0 0
                (BlockState.new "minecraft:stone")]).get_bounding_box.bmin.z + k)
            ).getD airState)) :=
  ⟨List.cons_ne_nil _ _, by decide, by decide, by decide,
    C1_roundtrip_amended "W" _ (List.cons_ne_nil _ _) (by decide) (by decide)
      (by decide)⟩

end SchematicUtils
